import Mathlib

/-!
Verification of the `dvorak` wiki-template parser and its MediaWiki-style
HTML sanitizer (`package dvorak`, `package html`).

The Go sources are shallowly embedded over `Str := List Char`: one Lean
definition per Go function, translated clause by clause.  Go's byte-offset
string indexing is modelled by code-point indexing (they coincide on ASCII
input, which covers every concrete input used below); Go `panic` is
modelled by `Option.none` (by a dedicated `crash` outcome where a Go
error return must be distinguished from a panic); Go's `regexp` patterns are translated into
explicit scanners implementing the leftmost-first match semantics that
`regexp.FindStringSubmatch` / `ReplaceAll*` provide, specialised to the
concrete patterns appearing in the source.
-/

set_option maxRecDepth 10000

/-- Strings are modelled as lists of code points. -/
abbrev Str := List Char

/-- Convert a Lean string literal to the model type. -/
def strOf (s : String) : Str := s.data

/-- Go `regexp` class `\s` = `[\t\n\f\r ]`. -/
def goSpace (c : Char) : Bool :=
  c = '\t' || c = '\n' || c = '\x0c' || c = '\r' || c = ' '

/-- Go `unicode.IsSpace`: the Unicode White_Space property. -/
def unicodeIsSpace (c : Char) : Bool :=
  c = '\t' || c = '\n' || c = '\x0b' || c = '\x0c' || c = '\r' || c = ' ' ||
  c = '\u0085' || c = ' ' || c = ' ' ||
  (0x2000 ≤ c.toNat && c.toNat ≤ 0x200A) ||
  c = ' ' || c = ' ' || c = ' ' || c = ' ' || c = '　'

/-- ASCII letters (regexp class `[A-Za-z]`). -/
def asciiAlpha (c : Char) : Bool :=
  ('A' ≤ c && c ≤ 'Z') || ('a' ≤ c && c ≤ 'z')

/-- ASCII digits (regexp class `[0-9]`). -/
def asciiDigit (c : Char) : Bool := '0' ≤ c && c ≤ '9'

/-- Hexadecimal digits (regexp class `[0-9A-Fa-f]`). -/
def hexDigit (c : Char) : Bool :=
  asciiDigit c || ('A' ≤ c && c ≤ 'F') || ('a' ≤ c && c ≤ 'f')

/-- Numeric value of a hexadecimal digit. -/
def hexVal (c : Char) : Nat :=
  if asciiDigit c then c.toNat - '0'.toNat
  else if 'A' ≤ c && c ≤ 'F' then c.toNat - 'A'.toNat + 10
  else c.toNat - 'a'.toNat + 10

/-- Go `strings.ToLower`, modelled on the ASCII range (non-ASCII letters are
kept unchanged; every concrete input below is ASCII). -/
def asciiLower (c : Char) : Char :=
  if 'A' ≤ c && c ≤ 'Z' then Char.ofNat (c.toNat + 32) else c

def lowerStr (s : Str) : Str := s.map asciiLower

/-- Index of the first occurrence of `pat` in `s` (Go `strings.Index`,
with code points in place of bytes), as an `Option`. -/
def idxOf? (pat : Str) : Str → Option Nat
  | [] => if pat.isPrefixOf ([] : Str) then some 0 else none
  | c :: cs =>
    if pat.isPrefixOf (c :: cs) then some 0
    else (idxOf? pat cs).map (· + 1)

/-- Go `strings.Index`: `-1` when absent. -/
def idxOfZ (s pat : Str) : Int :=
  match idxOf? pat s with
  | some n => (n : Int)
  | none => -1

/-- Go `strings.Contains`. -/
def containsSub (s pat : Str) : Bool := (idxOf? pat s).isSome

/-- Go `strings.TrimPrefix`. -/
def trimPrefStr (s pat : Str) : Str :=
  if pat.isPrefixOf s then s.drop pat.length else s

/-- Go `strings.TrimSuffix`. -/
def trimSufStr (s pat : Str) : Str :=
  if pat.isSuffixOf s then s.take (s.length - pat.length) else s

/-- Go `strings.TrimSpace` (Unicode white space trimmed from both ends). -/
def trimSpace (s : Str) : Str :=
  ((s.dropWhile unicodeIsSpace).reverse.dropWhile unicodeIsSpace).reverse

/-- Go `strings.Split` with a one-character separator. -/
def splitChar (sep : Char) : Str → List Str
  | [] => [[]]
  | c :: cs =>
    if c = sep then [] :: splitChar sep cs
    else
      match splitChar sep cs with
      | [] => [[c]]
      | f :: fs => (c :: f) :: fs

/-- Go `strings.ReplaceAll` with a one-character pattern. -/
def charReplace (c : Char) (rep : Str) (s : Str) : Str :=
  (s.map (fun d => if d = c then rep else [d])).flatten

/-- Go `strings.Cut`. -/
def cutSub (s pat : Str) : Str × Str × Bool :=
  match idxOf? pat s with
  | some n => (s.take n, s.drop (n + pat.length), true)
  | none => (s, [], false)

theorem idxOf?_isPref {pat : Str} :
    ∀ {s : Str} {n : Nat}, idxOf? pat s = some n → pat.isPrefixOf (s.drop n) = true := by
  intro s
  induction s with
  | nil =>
    intro n h
    unfold idxOf? at h
    split at h
    · next hp => cases h; simpa using hp
    · cases h
  | cons c cs ih =>
    intro n h
    unfold idxOf? at h
    split at h
    · next hp => cases h; simpa using hp
    · next hp =>
      match hn : idxOf? pat cs with
      | some m =>
        rw [hn] at h
        simp at h
        subst h
        simpa using ih hn
      | none => rw [hn] at h; cases h

theorem idxOf?_lt_length {pat : Str} (hpat : pat ≠ []) :
    ∀ {s : Str} {n : Nat}, idxOf? pat s = some n → n < s.length := by
  intro s n h
  have hpref := idxOf?_isPref h
  have : pat <+: s.drop n := by
    exact (List.isPrefixOf_iff_prefix).mp hpref
  have hlen : pat.length ≤ (s.drop n).length := this.length_le
  have hdrop : (s.drop n).length = s.length - n := List.length_drop n s
  have hpos : 0 < pat.length := List.length_pos.mpr hpat
  omega

theorem idxOfZ_ne_neg1 {s pat : Str} (hpat : pat ≠ []) (h : idxOfZ s pat ≠ -1) :
    0 < s.length := by
  unfold idxOfZ at h
  cases hx : idxOf? pat s with
  | some n =>
    have := idxOf?_lt_length hpat hx
    omega
  | none => rw [hx] at h; simp at h

/-! ### `src/dvorak.go` -/

/-- `nextDelimiter` returns the index of the first `|` in `s` that is not
enclosed within matching double brackets, or `-1` if no unenclosed `|` is
present in `s`.  (Direct translation of `nextDelimiter` in `dvorak.go`.) -/
def nextDelimiter (s : Str) : Int :=
  let lbr := idxOfZ s (strOf "[[")
  let pipe := idxOfZ s (strOf "|")
  if lbr = -1 ∨ (pipe ≠ -1 ∧ pipe < lbr) then pipe
  else
    let rbroffset := idxOfZ (s.drop lbr.toNat) (strOf "]]")
    if rbroffset = -1 then pipe
    else
      let endbr := lbr.toNat + rbroffset.toNat + 2
      let next := nextDelimiter (s.drop endbr)
      if next = -1 then -1 else (endbr : Int) + next
termination_by s.length
decreasing_by
  rename_i hcond _
  simp only [List.length_drop]
  have hlbr : idxOfZ s (strOf "[[") ≠ -1 := fun hc => hcond (Or.inl hc)
  have hpos : 0 < s.length := idxOfZ_ne_neg1 (by decide) hlbr
  omega

/-- `parseParameter` parses a named template parameter, trimming whitespace.
(Direct translation of `parseParameter` in `dvorak.go`.) -/
def parseParameter (s : Str) : Str × Str :=
  let eq := idxOfZ s (strOf "=")
  (trimSpace (trimSufStr (s.take (eq + 1).toNat) (strOf "=")),
   trimSpace (s.drop (eq + 1).toNat))

/-- `parseLinkText` returns the displayed text of an internal link, or the
filename if the link is to an image.  (Direct translation from `dvorak.go`;
Go's byte-based `name[len(name)-4:]` is modelled on code points.) -/
def parseLinkText (s : Str) : Str :=
  let s1 := trimPrefStr s (strOf "[[")
  let s2 := trimSufStr s1 (strOf "]]")
  if (strOf "File:").isPrefixOf s2 || (strOf "file:").isPrefixOf s2 then
    let name := trimSpace ((splitChar '|' (s2.drop 5)).headD [])
    if name.length < 5 then []
    else
      let ext := lowerStr (name.drop (name.length - 4))
      if ext = strOf ".jpg" ∨ ext = strOf ".png" then name else []
  else trimSpace ((splitChar '|' s2).getLastD [])

/-- The link-rewriting loop in `parseTemplate`'s default branch.  The Go
loop runs until no `[[...]]` span remains; each iteration shortens `s` by at
least two characters, so `fuel = s.length` (supplied by the caller) is never
exhausted.  In the user-signature branch the Go code re-slices
`post[strings.Index(post, "]]")+3:]`, which panics (slice bounds out of
range) when the first `]]` of `post` is its final two characters; the panic
is modelled by `none`. -/
def rewriteLinks : Nat → Str → Option Str
  | 0, s => some s
  | fuel + 1, s =>
    match idxOf? (strOf "[[") s with
    | none => some s
    | some op =>
      match idxOf? (strOf "]]") (s.drop op) with
      | none => some s
      | some cl =>
        let seg := (s.drop op).take (cl + 2)
        let after := s.drop (op + cl + 2)
        if (strOf "File:").isPrefixOf (s.drop (op + 2)) ||
            (strOf "file:").isPrefixOf (s.drop (op + 2)) then
          let name := parseLinkText seg
          let s' := s.take op ++ after
          rewriteLinks fuel (if name ≠ [] then s' ++ strOf "|image=" ++ name else s')
        else if (strOf "User:").isPrefixOf (s.drop (op + 2)) ||
            (strOf "user:").isPrefixOf (s.drop (op + 2)) then
          -- If this is the first field in a wiki user signature,
          -- consume and ignore the rest.
          let post := after
          if (strOf "([[User talk:").isPrefixOf (trimSpace post) then
            if post.length < (idxOfZ post (strOf "]]") + 3).toNat then none
            else
              let post1 := post.drop (idxOfZ post (strOf "]]") + 3).toNat
              let post2 :=
                match idxOf? (strOf " (UTC)") post1 with
                | some stampEnd => post1.drop (stampEnd + 6)
                | none => post1
              rewriteLinks fuel (s.take op ++ parseLinkText seg ++ post2)
          else rewriteLinks fuel (s.take op ++ parseLinkText seg ++ post)
        else
          rewriteLinks fuel (s.take op ++ parseLinkText seg ++ after)

/-- The field-collection loop of `parseTemplate`'s `rawLinks` branch.  Each
iteration consumes at least one character, so `fuel = s.length + 1` is never
exhausted. -/
def rawFields : Nat → Str → List Str → List Str
  | 0, s, acc => acc ++ [s]
  | fuel + 1, s, acc =>
    let next := nextDelimiter s
    if next = -1 then acc ++ [s]
    else rawFields fuel (s.drop (next.toNat + 1)) (acc ++ [s.take next.toNat])

/-- The syntax checks at the head of `parseTemplate`: `none` models the
`errInvalid` return; otherwise the body with markers stripped. -/
def templateBody (s : Str) : Option Str :=
  if (strOf "\x7b\x7b").isPrefixOf s ∧ (strOf "\x7d\x7d").isSuffixOf s then
    if containsSub (trimSufStr (trimPrefStr s (strOf "\x7b\x7b")) (strOf "\x7d\x7d"))
          (strOf "\x7b\x7b") ∨
        containsSub (trimSufStr (trimPrefStr s (strOf "\x7b\x7b")) (strOf "\x7d\x7d"))
          (strOf "\x7d\x7d") then none
    else some (trimSufStr (trimPrefStr s (strOf "\x7b\x7b")) (strOf "\x7d\x7d"))
  else none

/-- The field-splitting switch of `parseTemplate`; `none` propagates the
`rewriteLinks` slice panic. -/
def templateFields (b : Str) (rawLinks : Bool) : Option (List Str) :=
  if ¬ containsSub b (strOf "[[") ∨ ¬ containsSub b (strOf "]]") then
    some (splitChar '|' b)
  else if rawLinks then some (rawFields (b.length + 1) b [])
  else (rewriteLinks b.length b).map (splitChar '|')

/-- The `Template:` namespace stripping in `parseTemplate`'s name
derivation. -/
def dropTemplateNS (n : Str) : Str :=
  if (strOf "Template:").isPrefixOf n || (strOf "template:").isPrefixOf n then
    n.drop 9
  else n

/-- Go map assignment `m[k] = v` on an insertion-ordered association list. -/
def upsert (m : List (Str × Str)) (k v : Str) : List (Str × Str) :=
  if m.any (fun p => p.1 = k) then
    m.map (fun p => if p.1 = k then (k, v) else p)
  else m ++ [(k, v)]

/-- The possible outcomes of `parseTemplate`: the `errInvalid` error
return, a runtime panic, or a name with parameters. -/
inductive ParseOutcome where
  | err : ParseOutcome
  | crash : ParseOutcome
  | ok : Str → List (Str × Str) → ParseOutcome
deriving DecidableEq

/-- `parseTemplate` parses a template and returns its name and parameters;
`.err` models the `errInvalid` error return and `.crash` the slice panic
of the link-rewriting loop.  (Direct translation of `parseTemplate` in
`dvorak.go`; the Go parameter map is modelled by an association list with
last-write-wins assignment.) -/
def parseTemplate (s : Str) (rawLinks : Bool) : ParseOutcome :=
  match templateBody s with
  | none => .err
  | some b =>
    match templateFields b rawLinks with
    | none => .crash
    | some fields =>
      .ok (dropTemplateNS (trimSpace (fields.headD [])))
        ((fields.drop 1).foldl
          (fun m f => upsert m (parseParameter f).1 (parseParameter f).2) [])

theorem parseTemplate_err {s : Str} {rl : Bool} (hb : templateBody s = none) :
    parseTemplate s rl = ParseOutcome.err := by
  unfold parseTemplate
  rw [hb]

theorem parseTemplate_of_body {s b : Str} {rl : Bool}
    (hb : templateBody s = some b) :
    parseTemplate s rl =
      match templateFields b rl with
      | none => ParseOutcome.crash
      | some fields =>
          ParseOutcome.ok (dropTemplateNS (trimSpace (fields.headD [])))
            ((fields.drop 1).foldl
              (fun m f => upsert m (parseParameter f).1 (parseParameter f).2) []) := by
  unfold parseTemplate
  rw [hb]

/-! ### Claim C8: specification-side delimiter scanner

The claim describes `nextDelimiter` as: the index of the first `|` not
enclosed within a matched `[[...]]` span, where each `[[` is matched with
the next following `]]` left to right, an unterminated `[[` contributing no
span (so that it does not suppress detection, the search falling back to
the plain `|` scan over the remaining text). -/

/-- The matched `[[...]]` spans of `s` (half-open index intervals, brackets
included), pairing each `[[` with the next following `]]`, left to right;
an unterminated `[[` contributes no span. -/
def linkSpans (s : Str) : List (Nat × Nat) :=
  match h1 : idxOf? (strOf "[[") s with
  | none => []
  | some l =>
    match idxOf? (strOf "]]") (s.drop l) with
    | none => []
    | some off =>
      (l, l + off + 2) ::
        (linkSpans (s.drop (l + off + 2))).map
          (fun p => (p.1 + (l + off + 2), p.2 + (l + off + 2)))
termination_by s.length
decreasing_by
  have hlt : l < s.length := idxOf?_lt_length (by decide) h1
  simp only [List.length_drop]
  omega

/-- Whether index `i` lies inside one of `spans`. -/
def inSpans (spans : List (Nat × Nat)) (i : Nat) : Bool :=
  spans.any (fun p => decide (p.1 ≤ i) && decide (i < p.2))

/-- First index `≥ i` (scanning `s`, whose first character sits at absolute
index `i`) holding a `|` outside `spans`. -/
def fpo (spans : List (Nat × Nat)) : Str → Nat → Option Nat
  | [], _ => none
  | c :: cs, i =>
    if c = '|' ∧ inSpans spans i = false then some i else fpo spans cs (i + 1)

/-- The claim's specification of `nextDelimiter`. -/
def nextDelimiterSpec (s : Str) : Int :=
  match fpo (linkSpans s) s 0 with
  | some i => (i : Int)
  | none => -1

theorem idxOf?_le_length {pat : Str} :
    ∀ {s : Str} {n : Nat}, idxOf? pat s = some n → n ≤ s.length := by
  intro s
  induction s with
  | nil =>
    intro n h
    unfold idxOf? at h
    split at h
    · cases h; simp
    · cases h
  | cons c cs ih =>
    intro n h
    unfold idxOf? at h
    split at h
    · cases h; simp
    · cases hx : idxOf? pat cs with
      | none => rw [hx] at h; cases h
      | some m =>
        rw [hx] at h
        simp at h
        subst h
        have := ih hx
        simp
        omega

theorem idxOf?_add_len {pat s : Str} {n : Nat} (h : idxOf? pat s = some n) :
    n + pat.length ≤ s.length := by
  have hpref : pat <+: s.drop n := (List.isPrefixOf_iff_prefix).mp (idxOf?_isPref h)
  have hlen : pat.length ≤ (s.drop n).length := hpref.length_le
  rw [List.length_drop] at hlen
  have := idxOf?_le_length h
  omega

theorem idxOf?_single_at {c : Char} {s : Str} {n : Nat} (h : idxOf? [c] s = some n) :
    s[n]? = some c := by
  have hpref : [c].isPrefixOf (s.drop n) = true := idxOf?_isPref h
  rw [← List.head?_drop]
  cases hd : s.drop n with
  | nil => rw [hd] at hpref; simp [List.isPrefixOf] at hpref
  | cons b bs =>
    rw [hd] at hpref
    simp [List.isPrefixOf] at hpref
    simp [hd, hpref]

theorem idxOf?_single_ne {c : Char} :
    ∀ {s : Str} {n : Nat}, idxOf? [c] s = some n → ∀ m, m < n → s[m]? ≠ some c := by
  intro s
  induction s with
  | nil => intro n h m hm; simp [idxOf?, List.isPrefixOf] at h
  | cons a as ih =>
    intro n h m hm
    unfold idxOf? at h
    split at h
    · next hp => cases h; omega
    · next hp =>
      simp [List.isPrefixOf] at hp
      cases hx : idxOf? [c] as with
      | none => rw [hx] at h; cases h
      | some n' =>
        rw [hx] at h
        simp at h
        subst h
        cases m with
        | zero =>
          simp
          intro hac
          exact hp (by simp [hac])
        | succ m' =>
          simp only [List.getElem?_cons_succ]
          exact ih hx m' (by omega)

theorem idxOf?_single_none {c : Char} :
    ∀ {s : Str}, idxOf? [c] s = none → ∀ m : Nat, s[m]? ≠ some c := by
  intro s
  induction s with
  | nil => intro _ m; rw [List.getElem?_nil]; simp
  | cons a as ih =>
    intro h m
    unfold idxOf? at h
    split at h
    · cases h
    · next hp =>
      simp [List.isPrefixOf] at hp
      cases hx : idxOf? [c] as with
      | some n' => rw [hx] at h; simp at h
      | none =>
        cases m with
        | zero =>
          simp
          intro hac
          exact hp (by simp [hac])
        | succ m' =>
          simp only [List.getElem?_cons_succ]
          exact ih hx m'

theorem inSpans_nil (i : Nat) : inSpans [] i = false := rfl

theorem fpo_first_hit {spans : List (Nat × Nat)} :
    ∀ {s : Str} {i n : Nat}, idxOf? (strOf "|") s = some n →
      inSpans spans (i + n) = false → fpo spans s i = some (i + n) := by
  intro s
  induction s with
  | nil => intro i n h _; simp [idxOf?, List.isPrefixOf] at h
  | cons c cs ih =>
    intro i n h hin
    unfold idxOf? at h
    split at h
    · next hp =>
      cases h
      have hc : c = '|' := by
        have := hp
        simp [strOf, List.isPrefixOf] at this
        exact this.symm
      unfold fpo
      rw [if_pos ⟨hc, by simpa using hin⟩]
      simp
    · next hp =>
      have hc : ¬ c = '|' := by
        intro hc
        exact hp (by simp [strOf, List.isPrefixOf, hc])
      cases hx : idxOf? (strOf "|") cs with
      | none => rw [hx] at h; cases h
      | some m =>
        rw [hx] at h
        simp at h
        subst h
        unfold fpo
        rw [if_neg (by simp [hc])]
        have : i + 1 + m = i + (m + 1) := by omega
        rw [← this] at hin ⊢
        exact ih hx hin

theorem fpo_none_of_no_pipe {spans : List (Nat × Nat)} :
    ∀ {s : Str} {i : Nat}, idxOf? (strOf "|") s = none → fpo spans s i = none := by
  intro s
  induction s with
  | nil => intro i _; rfl
  | cons c cs ih =>
    intro i h
    unfold idxOf? at h
    split at h
    · cases h
    · next hp =>
      have hc : ¬ c = '|' := by
        intro hc
        exact hp (by simp [strOf, List.isPrefixOf, hc])
      cases hx : idxOf? (strOf "|") cs with
      | some m => rw [hx] at h; simp at h
      | none =>
        unfold fpo
        rw [if_neg (by simp [hc])]
        exact ih hx

theorem fpo_append_skip {spans : List (Nat × Nat)} :
    ∀ (u : Str) {v : Str} (i : Nat),
      (∀ k, k < u.length → u[k]? = some '|' → inSpans spans (i + k) = true) →
      fpo spans (u ++ v) i = fpo spans v (i + u.length) := by
  intro u
  induction u with
  | nil => intro v i _; simp
  | cons c cs ih =>
    intro v i h
    have hcond : ¬ (c = '|' ∧ inSpans spans i = false) := by
      rintro ⟨hc, hin⟩
      have := h 0 (by simp) (by simp [hc])
      simp at this
      rw [this] at hin
      cases hin
    have hrec := ih (v := v) (i + 1) (fun k hk hp => by
      have := h (k + 1) (by simpa using hk) (by simpa using hp)
      simpa [Nat.add_assoc, Nat.add_comm 1 k] using this)
    have harith : i + 1 + cs.length = i + (cs.length + 1) := by omega
    simp only [List.cons_append, fpo, List.append_eq]
    rw [if_neg hcond, hrec, harith, List.length_cons]

theorem fpo_cons_past {span : Nat × Nat} {spans : List (Nat × Nat)} :
    ∀ (v : Str) (i : Nat), span.2 ≤ i → fpo (span :: spans) v i = fpo spans v i := by
  intro v
  induction v with
  | nil => intro i _; rfl
  | cons c cs ih =>
    intro i hle
    have hins : inSpans (span :: spans) i = inSpans spans i := by
      unfold inSpans
      simp only [List.any_cons]
      have : decide (i < span.2) = false := by simp; omega
      simp [this]
    unfold fpo
    rw [hins, ih (i + 1) (by omega)]

theorem inSpans_shift {b i : Nat} {spans : List (Nat × Nat)} :
    inSpans (spans.map (fun p => (p.1 + b, p.2 + b))) (b + i) = inSpans spans i := by
  unfold inSpans
  rw [List.any_map]
  congr 1
  funext p
  simp only [Function.comp]
  congr 1
  · exact decide_eq_decide.mpr (by omega)
  · exact decide_eq_decide.mpr (by omega)

theorem fpo_shift {b : Nat} {spans : List (Nat × Nat)} :
    ∀ (v : Str) (i : Nat),
      fpo (spans.map (fun p => (p.1 + b, p.2 + b))) v (b + i) =
        (fpo spans v i).map (· + b) := by
  intro v
  induction v with
  | nil => intro i; rfl
  | cons c cs ih =>
    intro i
    unfold fpo
    rw [inSpans_shift]
    by_cases h : c = '|' ∧ inSpans spans i = false
    · rw [if_pos h, if_pos h]
      simp [Nat.add_comm]
    · rw [if_neg h, if_neg h]
      have := ih (i + 1)
      rw [← Nat.add_assoc] at this
      exact this

theorem linkSpans_no_open {s : Str} (h : idxOf? (strOf "[[") s = none) :
    linkSpans s = [] := by
  unfold linkSpans
  split
  · rfl
  · next l hl => rw [h] at hl; cases hl

theorem linkSpans_no_close {s : Str} {l : Nat}
    (hl : idxOf? (strOf "[[") s = some l)
    (hr : idxOf? (strOf "]]") (s.drop l) = none) :
    linkSpans s = [] := by
  unfold linkSpans
  split
  · rfl
  · next l' hl' =>
    rw [hl] at hl'
    cases hl'
    rw [hr]

theorem linkSpans_cons {s : Str} {l off : Nat}
    (hl : idxOf? (strOf "[[") s = some l)
    (hr : idxOf? (strOf "]]") (s.drop l) = some off) :
    linkSpans s = (l, l + off + 2) ::
      (linkSpans (s.drop (l + off + 2))).map
        (fun p => (p.1 + (l + off + 2), p.2 + (l + off + 2))) := by
  conv_lhs => rw [linkSpans.eq_def]
  split
  · next hnone => rw [hl] at hnone; cases hnone
  · next l' hl' =>
    rw [hl] at hl'
    cases hl'
    rw [hr]

theorem linkSpans_ge {s : Str} {l : Nat} (hl : idxOf? (strOf "[[") s = some l) :
    ∀ p ∈ linkSpans s, l ≤ p.1 := by
  intro p hp
  cases hr : idxOf? (strOf "]]") (s.drop l) with
  | none => rw [linkSpans_no_close hl hr] at hp; cases hp
  | some off =>
    rw [linkSpans_cons hl hr] at hp
    rw [List.mem_cons] at hp
    rcases hp with hp | hp
    · subst hp; simp
    · rcases List.mem_map.mp hp with ⟨q, hqm, hq⟩
      subst hq
      simp
      omega

theorem nextDelimiter_eq_spec_aux :
    ∀ (L : Nat) (s : Str), s.length ≤ L → nextDelimiter s = nextDelimiterSpec s := by
  intro L
  induction L with
  | zero =>
    intro s hs
    have hnil : s = [] := List.length_eq_zero.mp (Nat.le_zero.mp hs)
    subst hnil
    rw [nextDelimiter]
    simp [idxOfZ, idxOf?, List.isPrefixOf, nextDelimiterSpec, fpo]
  | succ L ih =>
    intro s hs
    rw [nextDelimiter]
    cases hl : idxOf? (strOf "[[") s with
    | none =>
      -- lbr = -1: the first branch returns pipe; no spans exist.
      rw [if_pos (by simp [idxOfZ, hl])]
      unfold nextDelimiterSpec
      rw [linkSpans_no_open hl]
      cases hp : idxOf? (strOf "|") s with
      | none => rw [fpo_none_of_no_pipe hp]; simp [idxOfZ, hp]
      | some p =>
        have : fpo [] s 0 = some (0 + p) := fpo_first_hit hp (by simp [inSpans])
        rw [this]
        simp [idxOfZ, hp]
    | some l =>
      have hlZ : idxOfZ s (strOf "[[") = (l : Int) := by simp [idxOfZ, hl]
      by_cases hpl : ∃ p, idxOf? (strOf "|") s = some p ∧ p < l
      · -- the first pipe sits before the first bracket: both sides return it
        obtain ⟨p, hp, hplt⟩ := hpl
        rw [if_pos (by
          right
          constructor
          · simp [idxOfZ, hp]
          · rw [hlZ]; simp [idxOfZ, hp]; omega)]
        unfold nextDelimiterSpec
        have hout : inSpans (linkSpans s) (0 + p) = false := by
          simp only [Nat.zero_add]
          unfold inSpans
          rw [List.any_eq_false]
          intro q hq
          have := linkSpans_ge hl q hq
          simp
          omega
        rw [fpo_first_hit hp hout]
        simp [idxOfZ, hp]
      · -- no pipe before the first bracket
        have hcondF : ¬ (idxOfZ s (strOf "[[") = -1 ∨
            (idxOfZ s (strOf "|") ≠ -1 ∧ idxOfZ s (strOf "|") < idxOfZ s (strOf "[["))) := by
          rintro (hc | ⟨hne, hlt⟩)
          · rw [hlZ] at hc; omega
          · cases hp : idxOf? (strOf "|") s with
            | none => simp [idxOfZ, hp] at hne
            | some p =>
              simp only [idxOfZ, hp, hl] at hlt
              exact hpl ⟨p, hp, by exact_mod_cast hlt⟩
        rw [if_neg hcondF]
        rw [hlZ]
        simp only [Int.toNat_natCast]
        cases hr : idxOf? (strOf "]]") (s.drop l) with
        | none =>
          rw [if_pos (by simp [idxOfZ, hr])]
          unfold nextDelimiterSpec
          rw [linkSpans_no_close hl hr]
          cases hp : idxOf? (strOf "|") s with
          | none => rw [fpo_none_of_no_pipe hp]; simp [idxOfZ, hp]
          | some p =>
            have : fpo [] s 0 = some (0 + p) := fpo_first_hit hp (by simp [inSpans])
            rw [this]
            simp [idxOfZ, hp]
        | some off =>
          rw [if_neg (by simp [idxOfZ, hr])]
          have hoffZ : (idxOfZ (s.drop l) (strOf "]]")).toNat = off := by
            simp [idxOfZ, hr]
          rw [hoffZ]
          -- set endbr
          have hlen2 : off + 2 ≤ (s.drop l).length := idxOf?_add_len hr
          rw [List.length_drop] at hlen2
          have hend_le : l + off + 2 ≤ s.length := by
            have := idxOf?_lt_length (by decide) hl
            omega
          have hIH := ih (s.drop (l + off + 2)) (by
            rw [List.length_drop]
            omega)
          rw [hIH]
          -- spec side
          unfold nextDelimiterSpec
          rw [linkSpans_cons hl hr]
          -- step 1: skip the first endbr characters
          have htad : s.take (l + off + 2) ++ s.drop (l + off + 2) = s :=
            List.take_append_drop _ s
          have htlen : (s.take (l + off + 2)).length = l + off + 2 :=
            List.length_take_of_le hend_le
          have hskip :
              fpo ((l, l + off + 2) ::
                  (linkSpans (s.drop (l + off + 2))).map
                    (fun p => (p.1 + (l + off + 2), p.2 + (l + off + 2)))) s 0 =
              fpo ((l, l + off + 2) ::
                  (linkSpans (s.drop (l + off + 2))).map
                    (fun p => (p.1 + (l + off + 2), p.2 + (l + off + 2))))
                (s.drop (l + off + 2)) (l + off + 2) := by
            conv_lhs => rw [← htad]
            rw [fpo_append_skip]
            · rw [htlen]; simp
            · intro k hk hkp
              rw [htlen] at hk
              rw [List.getElem?_take_of_lt hk] at hkp
              simp only [Nat.zero_add]
              rcases le_or_lt l k with hkl | hkl
              · -- inside the span
                unfold inSpans
                simp only [List.any_cons]
                have h1 : decide (l ≤ k) = true := by simp [hkl]
                have h2 : decide (k < l + off + 2) = true := by simp; omega
                simp [h1, h2]
              · -- before the first bracket: no pipe can be here
                exfalso
                cases hp : idxOf? (strOf "|") s with
                | none =>
                  exact idxOf?_single_none (c := '|') (by exact_mod_cast hp) k hkp
                | some p =>
                  have hge : l ≤ p := by
                    by_contra hcon
                    exact hpl ⟨p, hp, by omega⟩
                  exact idxOf?_single_ne (c := '|') (by exact_mod_cast hp) k
                    (by omega) hkp
          rw [hskip]
          rw [fpo_cons_past _ _ (by simp)]
          have hshift := @fpo_shift (l + off + 2)
            (linkSpans (s.drop (l + off + 2)))
            (s.drop (l + off + 2)) 0
          rw [Nat.add_zero] at hshift
          rw [hshift]
          cases hfi : fpo (linkSpans (s.drop (l + off + 2))) (s.drop (l + off + 2)) 0 with
          | none => simp
          | some m =>
            have : ¬ ((m : Int) = -1) := by omega
            rw [if_neg this]
            simp only [Option.map]
            push_cast
            omega

/-- `nextDelimiter` agrees with the claim's description everywhere. -/
theorem nextDelimiter_eq_spec (s : Str) : nextDelimiter s = nextDelimiterSpec s :=
  nextDelimiter_eq_spec_aux s.length s le_rfl

/-- **C8** (confirmed).  `nextDelimiter(s)` returns the index of the first
`|` in `s` that is not enclosed within a matched `[[...]]` span (matching
each `[[` with the next following `]]`, left to right), and `-1` when no
such `|` exists; an unterminated `[[` contributes no span, so it does not
suppress detection, the search falling back to the plain `|` scan on the
remaining string.  In particular
`nextDelimiter("Action|creator=[[User:ABC|ABC]]") = 6`,
`nextDelimiter("[[User:ABC|ABC]]|longtext=true") = 16`, and
`nextDelimiter("[[User:ABC|ABC]]") = -1`. -/
theorem C8_nextDelimiter :
    (∀ s : Str, nextDelimiter s = nextDelimiterSpec s) ∧
    nextDelimiter (strOf "Action|creator=[[User:ABC|ABC]]") = 6 ∧
    nextDelimiter (strOf "[[User:ABC|ABC]]|longtext=true") = 16 ∧
    nextDelimiter (strOf "[[User:ABC|ABC]]") = -1 := by
  refine ⟨nextDelimiter_eq_spec, ?_, ?_, ?_⟩
  · rw [nextDelimiter]
    simp +decide [idxOfZ]
  · rw [nextDelimiter]
    norm_num [idxOfZ]
    rw [nextDelimiter]
    simp +decide [idxOfZ]
  · rw [nextDelimiter]
    norm_num [idxOfZ]
    rw [nextDelimiter]
    simp +decide [idxOfZ]

/-- **C7** (code bug).  The claim says `parseTemplate(s)` returns the
invalid-syntax error exactly under the three syntax conditions (no leading
`\x7b\x7b`, no trailing `\x7d\x7d`, or nested markers in the stripped
body) and that every other input yields a name and parameter map with no
error.  The error half is exact, and the nested example errors as claimed;
but not every other input yields a result: on
`"\x7b\x7b[[User:A]]([[User talk:B]]\x7d\x7d"`, which passes all three
syntax checks, the user-signature branch slices
`post[strings.Index(post, "]]")+3:]` with the first `]]` ending `post`,
a slice-bounds panic (`.crash`) instead of a name and parameter map. -/
theorem C7_parseTemplate_error_iff :
    (∀ (s : Str) (rl : Bool),
      parseTemplate s rl = ParseOutcome.err ↔
        (¬ (strOf "\x7b\x7b").isPrefixOf s = true ∨
         ¬ (strOf "\x7d\x7d").isSuffixOf s = true ∨
         containsSub (trimSufStr (trimPrefStr s (strOf "\x7b\x7b")) (strOf "\x7d\x7d"))
             (strOf "\x7b\x7b") = true ∨
         containsSub (trimSufStr (trimPrefStr s (strOf "\x7b\x7b")) (strOf "\x7d\x7d"))
             (strOf "\x7d\x7d") = true)) ∧
    (∀ rl : Bool,
      parseTemplate (strOf "\x7b\x7bcard|title=ABC\x7d\x7d\x7b\x7bcard|title=DEF\x7d\x7d") rl =
        ParseOutcome.err) ∧
    templateBody (strOf "\x7b\x7b[[User:A]]([[User talk:B]]\x7d\x7d") =
      some (strOf "[[User:A]]([[User talk:B]]") ∧
    parseTemplate (strOf "\x7b\x7b[[User:A]]([[User talk:B]]\x7d\x7d") false =
      ParseOutcome.crash := by
  refine ⟨?_, ?_, by decide, by decide⟩
  · intro s rl
    cases hb : templateBody s with
    | none =>
      apply iff_of_true (parseTemplate_err hb)
      unfold templateBody at hb
      by_cases h1 : (strOf "\x7b\x7b").isPrefixOf s = true ∧
          (strOf "\x7d\x7d").isSuffixOf s = true
      · rw [if_pos h1] at hb
        by_cases h2 :
            containsSub (trimSufStr (trimPrefStr s (strOf "\x7b\x7b")) (strOf "\x7d\x7d"))
                (strOf "\x7b\x7b") = true ∨
            containsSub (trimSufStr (trimPrefStr s (strOf "\x7b\x7b")) (strOf "\x7d\x7d"))
                (strOf "\x7d\x7d") = true
        · rcases h2 with h2 | h2
          · exact Or.inr (Or.inr (Or.inl h2))
          · exact Or.inr (Or.inr (Or.inr h2))
        · rw [if_neg h2] at hb
          exact absurd hb (by simp)
      · rcases Decidable.not_and_iff_or_not.mp h1 with h | h
        · exact Or.inl h
        · exact Or.inr (Or.inl h)
    | some b =>
      apply iff_of_false
      · rw [parseTemplate_of_body hb]
        cases templateFields b rl <;> simp
      · unfold templateBody at hb
        by_cases h1 : (strOf "\x7b\x7b").isPrefixOf s = true ∧
            (strOf "\x7d\x7d").isSuffixOf s = true
        · rw [if_pos h1] at hb
          by_cases h2 :
              containsSub (trimSufStr (trimPrefStr s (strOf "\x7b\x7b")) (strOf "\x7d\x7d"))
                  (strOf "\x7b\x7b") = true ∨
              containsSub (trimSufStr (trimPrefStr s (strOf "\x7b\x7b")) (strOf "\x7d\x7d"))
                  (strOf "\x7d\x7d") = true
          · rw [if_pos h2] at hb
            exact absurd hb (by simp)
          · rintro (h | h | h | h)
            · exact h h1.1
            · exact h h1.2
            · exact (not_or.mp h2).1 h
            · exact (not_or.mp h2).2 h
        · rw [if_neg h1] at hb
          exact absurd hb (by simp)
  · intro rl
    exact parseTemplate_err (by decide)

/-- **C9 counterexample**.  The claim says the `Template:` prefix is
stripped under any letter casing; but
`parseTemplate("\x7b\x7bTEMPLATE:card\x7d\x7d")` returns the name
`TEMPLATE:card` with the prefix retained, not `card`. -/
theorem C9_counterexample :
    parseTemplate (strOf "\x7b\x7bTEMPLATE:card\x7d\x7d") false =
      ParseOutcome.ok (strOf "TEMPLATE:card") [] ∧
    strOf "TEMPLATE:card" ≠ strOf "card" :=
  ⟨by decide, by decide⟩

/-- **C9** (corrected).  For every successfully parsed template whose first
field, after trimming, starts with exactly `Template:` or `template:`
(capital or lowercase initial only — other casings such as `TEMPLATE:` are
not stripped), `parseTemplate` drops that nine-character prefix and returns
the remaining text, case preserved, as the template name. -/
theorem C9_template_name_amended (s : Str) (rl : Bool) (b : Str)
    (fields : List Str) (nm : Str) (ps : List (Str × Str)) (rest : Str)
    (hb : templateBody s = some b)
    (hfl : templateFields b rl = some fields)
    (hp : parseTemplate s rl = ParseOutcome.ok nm ps)
    (hf : trimSpace (fields.headD []) = strOf "Template:" ++ rest ∨
          trimSpace (fields.headD []) = strOf "template:" ++ rest) :
    nm = rest := by
  rw [parseTemplate_of_body hb, hfl] at hp
  have hp' : ParseOutcome.ok (dropTemplateNS (trimSpace (fields.headD [])))
      ((fields.drop 1).foldl
        (fun m f => upsert m (parseParameter f).1 (parseParameter f).2) []) =
      ParseOutcome.ok nm ps := hp
  injection hp' with h1 h2
  rcases hf with hf | hf
  · rw [← h1, hf]
    unfold dropTemplateNS
    rw [if_pos]
    · have hlen : (strOf "Template:").length = 9 := by decide
      rw [← hlen, List.drop_left]
    · have : (strOf "Template:").isPrefixOf (strOf "Template:" ++ rest) = true :=
        (List.isPrefixOf_iff_prefix).mpr (List.prefix_append _ _)
      simp [this]
  · rw [← h1, hf]
    unfold dropTemplateNS
    rw [if_pos]
    · have hlen : (strOf "template:").length = 9 := by decide
      rw [← hlen, List.drop_left]
    · have : (strOf "template:").isPrefixOf (strOf "template:" ++ rest) = true :=
        (List.isPrefixOf_iff_prefix).mpr (List.prefix_append _ _)
      simp [this]

/-- Witness for C9's amended theorem at `"\x7b\x7bTemplate:Card\x7d\x7d"`. -/
theorem C9_template_name_witness :
    templateBody (strOf "\x7b\x7bTemplate:Card\x7d\x7d") = some (strOf "Template:Card") ∧
    templateFields (strOf "Template:Card") false = some [strOf "Template:Card"] ∧
    parseTemplate (strOf "\x7b\x7bTemplate:Card\x7d\x7d") false =
      ParseOutcome.ok (strOf "Card") [] ∧
    strOf "Card" = strOf "Card" :=
  ⟨by decide, by decide, by decide,
    C9_template_name_amended (strOf "\x7b\x7bTemplate:Card\x7d\x7d") false
      (strOf "Template:Card") [strOf "Template:Card"] (strOf "Card") [] (strOf "Card")
      (by decide) (by decide) (by decide) (Or.inl (by decide))⟩

/-! ### `src/html/html.go` -/

/-- The Unicode replacement character `utf8.RuneError`. -/
def runeErrorC : Char := Char.ofNat 0xFFFD

def quoteC : Char := Char.ofNat 34

def aposC : Char := Char.ofNat 39

def btickC : Char := Char.ofNat 96

def bslashC : Char := '\\'

def nulC : Char := Char.ofNat 0

/-- `wfURLProtocols` as a list of alternatives, in source order. -/
def protocols : List Str :=
  [strOf "bitcoin:", strOf "ftp://", strOf "ftps://", strOf "geo:", strOf "git://",
   strOf "gopher://", strOf "http://", strOf "https://", strOf "irc://", strOf "ircs://",
   strOf "magnet:", strOf "mailto:", strOf "matrix:", strOf "mms://", strOf "news:",
   strOf "nntp://", strOf "redis://", strOf "sftp://", strOf "sip:", strOf "sips:",
   strOf "sms:", strOf "ssh://", strOf "svn://", strOf "tel:", strOf "telnet://",
   strOf "urn:", strOf "worldwind://", strOf "xmpp:", strOf "//"]

/-- `htmlElements`: all valid HTML tags (htmlsingle ++ htmlpairsStatic ++
htmlnest; repetitions are harmless for membership). -/
def htmlElements : List Str :=
  [strOf "br", strOf "wbr", strOf "hr", strOf "li", strOf "dt", strOf "dd",
   strOf "meta", strOf "link",
   strOf "b", strOf "bdi", strOf "del", strOf "i", strOf "ins", strOf "u",
   strOf "font", strOf "big", strOf "small", strOf "sub", strOf "sup",
   strOf "h1", strOf "h2", strOf "h3", strOf "h4", strOf "h5", strOf "h6",
   strOf "cite", strOf "code", strOf "em", strOf "s",
   strOf "strike", strOf "strong", strOf "tt", strOf "var", strOf "div", strOf "center",
   strOf "blockquote", strOf "ol", strOf "ul", strOf "dl", strOf "table",
   strOf "caption", strOf "pre",
   strOf "ruby", strOf "rb", strOf "rp", strOf "rt", strOf "rtc", strOf "p",
   strOf "span", strOf "abbr", strOf "dfn",
   strOf "kbd", strOf "samp", strOf "data", strOf "time", strOf "mark",
   strOf "table", strOf "tr", strOf "td", strOf "th", strOf "div", strOf "blockquote",
   strOf "ol", strOf "ul",
   strOf "li", strOf "dl", strOf "dt", strOf "dd", strOf "font", strOf "big",
   strOf "small", strOf "sub", strOf "sup", strOf "span",
   strOf "var", strOf "kbd", strOf "samp", strOf "em", strOf "strong", strOf "q",
   strOf "ruby", strOf "bdo"]

/-- `htmlSingle`: tags that can be self-closed. -/
def htmlSingle : List Str :=
  [strOf "br", strOf "wbr", strOf "hr", strOf "li", strOf "dt", strOf "dd",
   strOf "meta", strOf "link"]

/-- `htmlSingleOnly`: elements that cannot have close tags. -/
def htmlSingleOnly : List Str :=
  [strOf "br", strOf "wbr", strOf "hr", strOf "meta", strOf "link"]

/-- The loop body of `removeHTMLComments`.  Each iteration removes at least
five characters, so `fuel = s.length` is never exhausted. -/
def rhcLoop : Nat → Str → Str
  | 0, s => s
  | fuel + 1, s =>
    match idxOf? (strOf "<!--") s with
    | none => s
    | some op =>
      match idxOf? (strOf "-->") (s.drop op) with
      | none => s
      | some clOff =>
        let cl := op + clOff + 3
        let lead := op - ((s.take op).reverse.takeWhile (fun c => c = ' ')).length
        let trail := cl + ((s.drop cl).takeWhile (fun c => c = ' ')).length
        if 0 < lead ∧ s.getD (lead - 1) nulC = '\n' ∧
            trail < s.length ∧ s.getD trail nulC = '\n' then
          rhcLoop fuel (s.take (lead - 1) ++ '\n' :: s.drop (trail + 1))
        else
          rhcLoop fuel (s.take op ++ s.drop cl)

/-- `removeHTMLComments` removes HTML comments; a comment framed by
newlines (ignoring spaces) also consumes the spaces and one newline. -/
def removeHTMLComments (s : Str) : Str := rhcLoop s.length s

/-- `elementBitsRegex` = `^(/?)([A-Za-z][^\s/>\0]*)([^>]*?)(/?>)([^<]*)$`,
with Go's leftmost-first submatch semantics: the optional slash is taken
when present, the tag name is the maximal run after the leading letter of
characters outside `[\s/>\0]`, the lazy `([^>]*?)` together with `(/?>)`
closes at the first `>` (as `/>` when that `>` is directly preceded by a
`/` not consumed by the name), and `([^<]*)$` takes the rest, failing if a
`<` remains. -/
def elementBits (t : Str) : Option (Str × Str × Str × Str × Str) :=
  match t with
  | [] => none
  | c :: cs =>
    let sl : Str := if c = '/' then [ '/' ] else []
    let u : Str := if c = '/' then cs else c :: cs
    match u with
    | [] => none
    | d :: ds =>
      if ¬ asciiAlpha d then none
      else
        let stop : Char → Bool := fun e => goSpace e || e = '/' || e = '>' || e = nulC
        let nameTail := ds.takeWhile (fun e => ¬ stop e)
        let tag := d :: nameTail
        let afterName := ds.drop nameTail.length
        match idxOf? ['>'] afterName with
        | none => none
        | some q0 =>
          let rest := afterName.drop (q0 + 1)
          if rest.any (fun e => e = '<') then none
          else if 0 < q0 ∧ afterName.getD (q0 - 1) nulC = '/' then
            some (sl, tag, afterName.take (q0 - 1), strOf "/>", rest)
          else some (sl, tag, afterName.take q0, strOf ">", rest)

/-- Generic fueled left-to-right replace scanner: at each position, `try`
either yields a replacement together with the rest of the input after the
match, or the character is copied.  Models `Regexp.ReplaceAllStringFunc` /
`strings.Replacer` for the concrete patterns below; every match consumes at
least one character, so `fuel = s.length` is never exhausted. -/
def scanRep (tryM : Str → Option (Str × Str)) : Nat → Str → Str
  | 0, s => s
  | _ + 1, [] => []
  | fuel + 1, c :: cs =>
    match tryM (c :: cs) with
    | some (rep, rest) => rep ++ scanRep tryM fuel rest
    | none => c :: scanRep tryM fuel cs

/-- The named entities known to the model of Go's `html.UnescapeString`
(name without the leading `&`, replacement text).  This is the WHATWG
table restricted to a representative subset — including the semicolon-free
legacy forms of the entities listed — which is enough for every claim
below; no claim depends on entities outside this subset. -/
def entityList : List (Str × Str) :=
  [(strOf "amp;", strOf "&"), (strOf "lt;", strOf "<"), (strOf "gt;", strOf ">"),
   (strOf "quot;", [quoteC]), (strOf "apos;", [aposC]),
   (strOf "nbsp;", strOf " "), (strOf "copy;", strOf "©"),
   (strOf "reg;", strOf "®"), (strOf "trade;", strOf "™"),
   (strOf "hellip;", strOf "…"), (strOf "mdash;", strOf "—"),
   (strOf "ndash;", strOf "–"), (strOf "rlm;", strOf "‏"),
   (strOf "lrm;", strOf "‎"), (strOf "deg;", strOf "°"),
   (strOf "middot;", strOf "·"), (strOf "laquo;", strOf "«"),
   (strOf "raquo;", strOf "»"), (strOf "sect;", strOf "§"),
   (strOf "para;", strOf "¶"), (strOf "plusmn;", strOf "±"),
   (strOf "times;", strOf "×"), (strOf "divide;", strOf "÷"),
   (strOf "euro;", strOf "€"), (strOf "pound;", strOf "£"),
   (strOf "yen;", strOf "¥"), (strOf "cent;", strOf "¢"),
   (strOf "bsol;", [bslashC]),
   (strOf "amp", strOf "&"), (strOf "lt", strOf "<"), (strOf "gt", strOf ">"),
   (strOf "quot", [quoteC]), (strOf "nbsp", strOf " "),
   (strOf "copy", strOf "©"), (strOf "reg", strOf "®"),
   (strOf "times", strOf "×"), (strOf "divide", strOf "÷"),
   (strOf "laquo", strOf "«"), (strOf "raquo", strOf "»"),
   (strOf "deg", strOf "°"), (strOf "middot", strOf "·"),
   (strOf "sect", strOf "§"), (strOf "para", strOf "¶"),
   (strOf "plusmn", strOf "±"), (strOf "pound", strOf "£"),
   (strOf "yen", strOf "¥"), (strOf "cent", strOf "¢")]

/-- Longest entity of the table matching a prefix of `r` (Go's
`html.UnescapeString` resolves the longest entity name). -/
def bestEntity (r : Str) : Option (Str × Str) :=
  entityList.foldl
    (fun acc p =>
      if p.1.isPrefixOf r then
        match acc with
        | none => some p
        | some q => if q.1.length < p.1.length then some p else some q
      else acc)
    none

def unescTry (s : Str) : Option (Str × Str) :=
  match s with
  | '&' :: r =>
    match bestEntity r with
    | some (name, val) => some (val, r.drop name.length)
    | none => none
  | _ => none

/-- Model of Go `html.UnescapeString`. -/
def unescapeString (s : Str) : Str := scanRep unescTry s.length s

/-- `mwEntityAliases`: MediaWiki-only aliases.  The keys carry no leading
`&`, while `decodeEntity` receives the full match including `&`, so the
lookup can never hit (translated faithfully). -/
def mwEntityAliases (k : Str) : Str :=
  if k = strOf "רלמ;" then strOf "rlm;"
  else if k = strOf "رلم;" then strOf "rlm;"
  else []

/-- `decodeEntity` receives the whole regexp match (Go's
`ReplaceAllStringFunc` passes the full matched text, `&` included). -/
def decodeEntity (name : Str) : Str :=
  if mwEntityAliases name ≠ [] then unescapeString (mwEntityAliases name)
  else unescapeString name

/-- Numeric value of a digit string. -/
def digitsVal (l : Str) : Nat := l.foldl (fun a c => a * 10 + (c.toNat - '0'.toNat)) 0

def hexDigitsVal (l : Str) : Nat := l.foldl (fun a c => a * 16 + hexVal c) 0

/-- Go `strconv.Atoi` (= `ParseInt(s, 10, 64)` on 64-bit): optional sign,
then decimal digits; empty, stray characters and 64-bit overflow error. -/
def atoi? (s : Str) : Option Int :=
  match s with
  | [] => none
  | _ =>
    let p : Bool × Str :=
      match s with
      | '+' :: r => (false, r)
      | '-' :: r => (true, r)
      | r => (false, r)
    let neg := p.1
    let ds := p.2
    if ds = [] ∨ ¬ ds.all asciiDigit then none
    else
      let v : Int := (digitsVal ds : Int)
      let v := if neg then -v else v
      if v < -(2 ^ 63) ∨ 2 ^ 63 - 1 < v then none else some v

/-- Go `strconv.ParseInt(s, 16, 64)`. -/
def parseHex64? (s : Str) : Option Int :=
  match s with
  | [] => none
  | _ =>
    let p : Bool × Str :=
      match s with
      | '+' :: r => (false, r)
      | '-' :: r => (true, r)
      | r => (false, r)
    let neg := p.1
    let ds := p.2
    if ds = [] ∨ ¬ ds.all hexDigit then none
    else
      let v : Int := (hexDigitsVal ds : Int)
      let v := if neg then -v else v
      if v < -(2 ^ 63) ∨ 2 ^ 63 - 1 < v then none else some v

/-- Go `rune(n)` for `n : int`/`int64`: truncation to `int32`. -/
def toInt32 (n : Int) : Int := (n + 2147483648) % 4294967296 - 2147483648

/-- Go `string(r)` for a rune: the character, or U+FFFD when `r` is not a
valid Unicode scalar value. -/
def stringOfRune (r : Int) : Str :=
  if (0 ≤ r ∧ r < 0xD800) ∨ (0xDFFF < r ∧ r ≤ 0x10FFFF) then [Char.ofNat r.toNat]
  else [runeErrorC]

/-- `validateCodePoint` reports whether `r` is a valid code point in both
HTML5 and XML. -/
def validateCodePoint (r : Int) : Bool :=
  decide (r = 0x09) || decide (r = 0x0a) ||
  decide (0x20 ≤ r ∧ r ≤ 0x7e) ||
  decide (0xa0 ≤ r ∧ r ≤ 0xd7ff) ||
  decide (0xe000 ≤ r ∧ r ≤ 0xfffd) ||
  decide (0x10000 ≤ r ∧ r ≤ 0x10ffff)

/-- `decodeChar`: `r`'s string representation if valid, else U+FFFD. -/
def decodeChar (r : Int) : Str :=
  if validateCodePoint r then stringOfRune r else [runeErrorC]

/-- `decodeDec` — note that via `decodeCharReferences` it receives the full
match `&#NNN;`, on which `Atoi` always errors. -/
def decodeDec (s : Str) : Str :=
  match atoi? s with
  | none => [runeErrorC]
  | some n => decodeChar (toInt32 n)

/-- `decodeHex` — likewise receives the full match `&#xHH;`. -/
def decodeHex (s : Str) : Str :=
  match parseHex64? s with
  | none => [runeErrorC]
  | some n => decodeChar (toInt32 n)

/-- Character class `[A-Za-z0-9\x80-\xff]` of `charRefsEntityRegex`. -/
def entityChar (c : Char) : Bool :=
  asciiAlpha c || asciiDigit c || (0x80 ≤ c.toNat && c.toNat ≤ 0xff)

/-- One match attempt of `charRefsEntityRegex` = `&([A-Za-z0-9\x80-\xff]+;)`,
replaced through `decodeEntity` applied to the whole match. -/
def entityTry (s : Str) : Option (Str × Str) :=
  match s with
  | '&' :: r =>
    let run := r.takeWhile entityChar
    if run ≠ [] ∧ (r.drop run.length).headD nulC = ';' then
      some (decodeEntity ('&' :: (run ++ [';'])), r.drop (run.length + 1))
    else none
  | _ => none

/-- One match attempt of `charRefsDecRegex` = `&\#([0-9]+);`, replaced
through `decodeDec` applied to the whole match. -/
def decTry (s : Str) : Option (Str × Str) :=
  match s with
  | '&' :: '#' :: r =>
    let run := r.takeWhile asciiDigit
    if run ≠ [] ∧ (r.drop run.length).headD nulC = ';' then
      some (decodeDec ('&' :: '#' :: (run ++ [';'])), r.drop (run.length + 1))
    else none
  | _ => none

/-- One match attempt of `charRefsHexRegex` = `&\#[xX]([0-9A-Fa-f]+);`,
replaced through `decodeHex` applied to the whole match. -/
def hexTry (s : Str) : Option (Str × Str) :=
  match s with
  | '&' :: '#' :: x :: r =>
    if x = 'x' ∨ x = 'X' then
      let run := r.takeWhile hexDigit
      if run ≠ [] ∧ (r.drop run.length).headD nulC = ';' then
        some (decodeHex ('&' :: '#' :: x :: (run ++ [';'])), r.drop (run.length + 1))
      else none
    else none
  | _ => none

/-- `decodeCharReferences` decodes numeric or named entities in text: the
entity pass, the decimal pass, the hexadecimal pass, then
`charRefsAmpersandRegex` = `(&)` replaced by `&`. -/
def decodeCharReferences (text : Str) : Str :=
  let t1 := scanRep entityTry text.length text
  let t2 := scanRep decTry t1.length t1
  let t3 := scanRep hexTry t2.length t2
  charReplace '&' (strOf "&") t3

/-- Go `[\s]+` → `" "` (`spaceRegex.ReplaceAllString(value, " ")`):
collapse runs of regexp whitespace into a single space. -/
def spaceCollapseAux (prevSpace : Bool) : Str → Str
  | [] => []
  | c :: cs =>
    if goSpace c then
      (if prevSpace then [] else [' ']) ++ spaceCollapseAux true cs
    else c :: spaceCollapseAux false cs

def spaceCollapse (s : Str) : Str := spaceCollapseAux false s

/-- `attrNameRegex` = `^([:_\p{L}\p{N}][:_\.\-\p{L}\p{N}]*)$`.  The Unicode
classes `\p{L}`/`\p{N}` are modelled on the ASCII range (no claim below
depends on non-ASCII attribute names). -/
def nameStartOk (c : Char) : Bool :=
  c = ':' || c = '_' || asciiAlpha c || asciiDigit c

def nameTailOk (c : Char) : Bool := nameStartOk c || c = '.' || c = '-'

def attrNameOk (s : Str) : Bool :=
  match s with
  | [] => false
  | c :: cs => nameStartOk c && cs.all nameTailOk

/-- One submatch record of `attrRegex`: group 1 (the attribute name token),
whether group 2 (the `=`-and-value part) matched, and groups 3–5 (double-
quoted, single-quoted, unquoted value). -/
structure AttrM where
  g1 : Str
  g2 : Bool
  g3 : Str
  g4 : Str
  g5 : Str
deriving DecidableEq, Repr

/-- Index of the last occurrence of `c` (backtracking target for the
`(?:\"|\$)` / `(?:'|\$)` terminators of `attrRegex`, whose `\$` is a
literal dollar sign). -/
def lastIdxOf? (c : Char) (l : Str) : Option Nat :=
  (idxOf? [c] l.reverse).map (fun k => l.length - 1 - k)

/-- The unquoted-value alternative `([^\s>]*)` of `attrRegex`. -/
def unquotedVal (v : Str) : Str × Str :=
  let g5 := v.takeWhile (fun d => !goSpace d && !(d = '>'))
  (g5, v.drop g5.length)

/-- One leftmost-first match of `attrRegex`
`((?s)(?:[^\s\/=]|=)[^\s\/=]*)([\s]*=[\s]*(?:\"([^\"]*)(?:\"|\$)|'([^']*)(?:'|\$)|([^\s>]*)))?`
starting at `s` (whose head must be outside `[\s/]`): the name token is the
maximal run, the optional group requires whitespace then `=`, and the value
alternatives are tried in order double-quoted, single-quoted, unquoted,
an unterminated quote backtracking to a literal `$` terminator and
otherwise falling through to the unquoted alternative. -/
def attrTryMatch (s : Str) : Option (AttrM × Str) :=
  match s with
  | [] => none
  | c :: cs =>
    if goSpace c || c = '/' then none
    else
      let nameTail := cs.takeWhile (fun d => !goSpace d && !(d = '/') && !(d = '='))
      let g1 := c :: nameTail
      let rest1 := cs.drop nameTail.length
      let ws := rest1.takeWhile goSpace
      let rest2 := rest1.drop ws.length
      match rest2 with
      | '=' :: rest3 =>
        let rest4 := rest3.dropWhile goSpace
        match rest4 with
        | [] => some (⟨g1, true, [], [], []⟩, [])
        | v :: r =>
          if v = quoteC then
            match idxOf? [quoteC] r with
            | some b => some (⟨g1, true, r.take b, [], []⟩, r.drop (b + 1))
            | none =>
              match lastIdxOf? '$' r with
              | some e => some (⟨g1, true, r.take e, [], []⟩, r.drop (e + 1))
              | none =>
                let (g5, rest5) := unquotedVal (v :: r)
                some (⟨g1, true, [], [], g5⟩, rest5)
          else if v = aposC then
            match idxOf? [aposC] r with
            | some b => some (⟨g1, true, [], r.take b, []⟩, r.drop (b + 1))
            | none =>
              match lastIdxOf? '$' r with
              | some e => some (⟨g1, true, [], r.take e, []⟩, r.drop (e + 1))
              | none =>
                let (g5, rest5) := unquotedVal (v :: r)
                some (⟨g1, true, [], [], g5⟩, rest5)
          else
            let (g5, rest5) := unquotedVal (v :: r)
            some (⟨g1, true, [], [], g5⟩, rest5)
      | _ => some (⟨g1, false, [], [], []⟩, rest1)

/-- `attrRegex.FindAllStringSubmatch`: scan left to right, skipping
characters that cannot start a match.  Each match consumes at least the
name token, so `fuel = s.length` is never exhausted. -/
def attrScan : Nat → Str → List AttrM
  | 0, _ => []
  | _ + 1, [] => []
  | fuel + 1, c :: cs =>
    match attrTryMatch (c :: cs) with
    | some (m, rest) => m :: attrScan fuel rest
    | none => attrScan fuel cs

/-- Association-list lookup with the Go map default `""`. -/
def lookupA (m : List (Str × Str)) (k : Str) : Str :=
  ((m.find? (fun p => p.1 = k)).map (fun p => p.2)).getD []

/-- `decodeTagAttributes` returns a map of attribute names and values from
a partial tag string (the Go map is modelled by an insertion-ordered
association list with overwriting assignment). -/
def decodeTagAttributes (text : Str) : List (Str × Str) :=
  if trimSpace text = [] then []
  else
    let sets := attrScan text.length text
    sets.foldl
      (fun attrs set =>
        let attr := lowerStr set.g1
        if ¬ attrNameOk attr then attrs
        else
          let val? : Option Str :=
            if set.g5 ≠ [] then some set.g5
            else if set.g4 ≠ [] then some set.g4
            else if set.g3 ≠ [] then some set.g3
            else if set.g2 = false then some []
            else none
          match val? with
          | none => attrs
          | some value =>
            upsert attrs attr (decodeCharReferences (spaceCollapse value)))
      []

/-- First match of `decodeEscapeRegex`: the suffix following the first two
consecutive backslashes (the pattern's mandatory `\\\\` prefix denotes two
literal backslashes), or `none` when the regexp does not match — in which
case Go's `FindStringSubmatch` returns `nil` and `normalizeCSS` panics on
`matches[1]`. -/
def findEscapeTail : Str → Option Str
  | [] => none
  | [_] => none
  | c1 :: c2 :: rest =>
    if c1 = bslashC ∧ c2 = bslashC then some rest
    else findEscapeTail (c2 :: rest)

/-- Classification of `decodeEscapeRegex`'s alternation on the text after
the two backslashes: group 1 `((?:\\n|\\r\\n|\\r|\\f))` (a literal
backslash followed by `n`, `r` or `f`), group 2 `([0-9A-Fa-f]{1,6})\s?`,
group 3 `(.)` (any character but newline), group 4 `()` (empty). -/
inductive EscCase where
  | lineCont : EscCase
  | hex : Str → EscCase
  | escChar : Char → EscCase
  | bare : EscCase
deriving DecidableEq

def classifyEscape (r : Str) : EscCase :=
  match r with
  | [] => .bare
  | c :: rest =>
    if c = bslashC ∧ (rest.headD nulC = 'n' ∨ rest.headD nulC = 'r' ∨ rest.headD nulC = 'f') then
      .lineCont
    else if hexDigit c then .hex (c :: (rest.takeWhile hexDigit).take 5)
    else if ¬ c = '\n' then .escChar c
    else .bare

/-- Lowercase hex digits of a byte (Go `fmt.Sprintf("%x", b)`). -/
def hexDigitChar (n : Nat) : Char :=
  if n < 10 then Char.ofNat ('0'.toNat + n) else Char.ofNat ('a'.toNat + n - 10)

def hexOfByte (n : Nat) : Str :=
  if n < 16 then [hexDigitChar n] else [hexDigitChar (n / 16), hexDigitChar (n % 16)]

/-- `cssCommentRegex` = `\s*/\*[^*\\/]*\*/\s*$` (unanchored search: a
leading `\s*` is subsumed by trying every start position). -/
def cssCommentCore : Str → Bool
  | '/' :: '*' :: rest =>
    let body := rest.takeWhile (fun c => !(c = '*') && !(c = bslashC) && !(c = '/'))
    (match rest.drop body.length with
     | '*' :: '/' :: tail => tail.all goSpace
     | _ => false)
  | _ => false

def cssCommentMatch : Str → Bool
  | [] => false
  | l@(_ :: cs) => cssCommentCore l || cssCommentMatch cs

/-- The comment-removal loop of `normalizeCSS` (each iteration removes at
least three characters, so `fuel = s.length` is never exhausted). -/
def stripCSSComments : Nat → Str → Str
  | 0, s => s
  | fuel + 1, s =>
    let c1 := cutSub s (strOf "/*")
    if ¬ c1.2.2 then s
    else
      let c2 := cutSub c1.2.1 (strOf "*/")
      if ¬ c2.2.2 then s
      else stripCSSComments fuel (c1.1 ++ ' ' :: c2.2.1)

/-- `normalizeCSS` decodes character references and escape sequences and
strips comments; `none` models the panic on `matches[1]` of a `nil`
`FindStringSubmatch` result (any input without two consecutive
backslashes after reference decoding). -/
def normalizeCSS (s : Str) : Option Str :=
  let s0 := decodeCharReferences s
  match findEscapeTail s0 with
  | none => none
  | some r =>
    match classifyEscape r with
    | .lineCont => some []
    | .hex ds =>
      match parseHex64? ds with
      | none => some []
      | some n =>
        some (normTail (stringOfRune (toInt32 n)))
    | .escChar c => some (normTail [c])
    | .bare => some (normTail [bslashC, bslashC])
  where
    /-- The post-switch steps: re-escape the characters that need escaping
    in strings, let a single well-formed comment through, then strip
    comments and truncate at an unmatched comment-start. -/
    normTail (s : Str) : Str :=
      let s :=
        if s = [bslashC, 'n'] ∨ s = [quoteC] ∨ s = [btickC] ∨ s = [bslashC, bslashC] then
          bslashC :: bslashC :: (hexOfByte (s.headD nulC).toNat ++ [' '])
        else s
      if cssCommentMatch s then s
      else
        let s := stripCSSComments s.length s
        (cutSub s (strOf "/*")).1

/-- `cssControlCharsRegex` = `[\000-\101\103\016-\037\177]` (as written:
everything up to `A` (0x41), `C` (0x43), 0x0E–0x1F, DEL). -/
def cssControlMatch (s : Str) : Bool :=
  s.any (fun c =>
    c.toNat ≤ 0x41 || c.toNat = 0x43 ||
    (0x0e ≤ c.toNat && c.toNat ≤ 0x1f) || c.toNat = 0x7f)

/-- Case-insensitive literal prefix test (regexp `(?i)` with a lowercase
literal). -/
def ciPref (s : Str) (lit : Str) : Bool :=
  lowerStr (s.take lit.length) = lit

/-- `:` after optional whitespace (`\s*:`). -/
def colonAfter (l : Str) : Bool :=
  (l.dropWhile goSpace).headD nulC = ':'

/-- `(` after optional whitespace (`\s*\(`). -/
def parenAfter (l : Str) : Bool :=
  (l.dropWhile goSpace).headD nulC = '('

/-- The `[^)]+[\s,]+url` part of the `attr\s*\(` alternative of
`cssProblematicRegex`, scanned over the text after the `(`. -/
def attrUrlLoop (j : Nat) (prev : Char) : Str → Bool
  | [] => false
  | c :: cs =>
    if 2 ≤ j ∧ (goSpace prev ∨ prev = ',') ∧ ciPref (c :: cs) (strOf "url") then true
    else if c = ')' then false
    else attrUrlLoop (j + 1) c cs

def attrUrlAfter (rest : Str) : Bool :=
  match rest with
  | [] => false
  | c :: cs => if c = ')' then false else attrUrlLoop 1 c cs

/-- One-position test of `cssProblematicRegex`'s alternation. -/
def cssProblematicAt (s : Str) : Bool :=
  ciPref s (strOf "expression") ||
  (ciPref s (strOf "accelerator") && colonAfter (s.drop 11)) ||
  (ciPref s (strOf "-o-link") && colonAfter (s.drop 7)) ||
  (ciPref s (strOf "-o-link-source") && colonAfter (s.drop 14)) ||
  (ciPref s (strOf "-o-replace") && colonAfter (s.drop 10)) ||
  (ciPref s (strOf "url") && parenAfter (s.drop 3)) ||
  (ciPref s (strOf "image") && parenAfter (s.drop 5)) ||
  (ciPref s (strOf "image-set") && parenAfter (s.drop 9)) ||
  (ciPref s (strOf "attr") && parenAfter (s.drop 4) &&
    attrUrlAfter (((s.drop 4).dropWhile goSpace).drop 1))

/-- `cssProblematicRegex.MatchString`. -/
def cssProblematicMatch : Str → Bool
  | [] => false
  | l@(_ :: cs) => cssProblematicAt l || cssProblematicMatch cs

/-- `checkCSS` normalizes and sanitizes `s`; `none` models the panic
inherited from `normalizeCSS`. -/
def checkCSS (s : Str) : Option Str :=
  match normalizeCSS s with
  | none => none
  | some s1 =>
    if cssControlMatch s1 || s1.contains runeErrorC then
      some (strOf "/* invalid control char */")
    else if cssProblematicMatch s1 then
      some (strOf "/* insecure input */")
    else some s1

/-- Go `utf8` byte length of a string. -/
def utf8Len (s : Str) : Nat := (s.map Char.utf8Size).sum

/-- The byte-offset walk of `escapeIDForAttribute`'s truncation loop:
index of the first rune whose byte offset reaches 1024. -/
def truncLoop : Str → Nat → Nat → Option Nat
  | [], _, _ => none
  | c :: cs, k, off =>
    if 1024 ≤ off then some k else truncLoop cs (k + 1) (off + c.utf8Size)

/-- `escapeIDForAttribute`: truncate overly-long IDs on the rune before
the first rune start at byte offset ≥ 1024, then map Unicode whitespace
to `_`. -/
def escapeIDForAttribute (id : Str) : Str :=
  let id :=
    if 1024 ≤ utf8Len id then
      match truncLoop id 0 0 with
      | some k => id.take (k - 1)
      | none => id
    else id
  id.map (fun r => if unicodeIsSpace r then '_' else r)

/-- Go `strings.Fields` (splitting around runs of Unicode white space). -/
def fieldsAux (w : Str) : Str → List Str
  | [] => if w = [] then [] else [w.reverse]
  | c :: cs =>
    if unicodeIsSpace c then
      if w = [] then fieldsAux [] cs else w.reverse :: fieldsAux [] cs
    else fieldsAux (c :: w) cs

def fieldsUni (s : Str) : List Str := fieldsAux [] s

/-- `escapeIDReferenceList`: escape each whitespace-delimited ID. -/
def escapeIDReferenceList (ids : Str) : Str :=
  List.intercalate [' '] ((fieldsUni ids).map escapeIDForAttribute)

/-- Regexp `\w` = `[0-9A-Za-z_]`. -/
def isWordChar (c : Char) : Bool := asciiAlpha c || asciiDigit c || c = '_'

/-- `(javascript|vbscript)([^\w]|$)` at the start of `s`, case-insensitive. -/
def evilKwAt (s : Str) (kw : Str) : Bool :=
  ciPref s kw &&
    (match s.drop kw.length with
     | [] => true
     | d :: _ => !isWordChar d)

def evilAt (s : Str) : Bool :=
  evilKwAt s (strOf "javascript") || evilKwAt s (strOf "vbscript")

/-- `evilURIPattern` = `(?i:(^|\s|\*/\s*)(javascript|vbscript)([^\w]|$))`.
A position qualifies when at the start, after a whitespace character, or
directly after `*/` (any whitespace run after `*/` is already covered by
the `\s` alternative). -/
def evilLoop (p2 p1 : Option Char) : Str → Bool
  | [] => false
  | c :: cs =>
    let okHere :=
      match p1 with
      | none => true
      | some d => goSpace d || (d = '/' ∧ p2 = some '*')
    (okHere && evilAt (c :: cs)) || evilLoop p1 (some c) cs

def evilURIMatch (value : Str) : Bool := evilLoop none none value

/-- `hrefExp` = `^(wfURLProtocols)[^\s]+$` (case-sensitive). -/
def hrefExpMatch (v : Str) : Bool :=
  protocols.any (fun p => p.isPrefixOf v && p.length < v.length) &&
    v.all (fun c => !goSpace c)

/-- One match attempt of `wfURLProtocolsRegex` (`(?i)` over the protocol
alternation, in source order), replaced by the match with each `:`
rewritten to `&#58;` (`replaceColons`). -/
def protoTry (s : Str) : Option (Str × Str) :=
  match protocols.find? (fun p => ciPref s p) with
  | some p => some (charReplace ':' (strOf "&#58;") (s.take p.length), s.drop p.length)
  | none => none

def protoReplaceColons (s : Str) : Str := scanRep protoTry s.length s

/-- `commonAttrs` of `attributes.go`. -/
def commonAttrs : List Str :=
  [strOf "id", strOf "class", strOf "style", strOf "lang", strOf "dir",
   strOf "title", strOf "tabindex",
   strOf "aria-describedby", strOf "aria-flowto", strOf "aria-hidden",
   strOf "aria-label", strOf "aria-labelledby", strOf "aria-owns", strOf "role",
   strOf "about", strOf "property", strOf "resource", strOf "datatype", strOf "typeof",
   strOf "itemid", strOf "itemprop", strOf "itemref", strOf "itemscope", strOf "itemtype"]

def tableAlignAttrs : List Str := [strOf "align", strOf "valign"]

def tableCellAttrs : List Str :=
  [strOf "abbr", strOf "axis", strOf "headers", strOf "scope", strOf "rowspan",
   strOf "colspan", strOf "nowrap", strOf "width", strOf "height", strOf "bgcolor"]

def commonAlignAttrs : List Str := commonAttrs ++ tableAlignAttrs

def commonAlignCellAttrs : List Str := commonAlignAttrs ++ tableCellAttrs

def blockAttrs : List Str := commonAttrs ++ [strOf "align"]

/-- `attributesAllowed`: allowed attributes per HTML element
(membership-equivalent translation of the Go map of sets). -/
def attributesAllowedTable : List (Str × List Str) :=
  [(strOf "div", blockAttrs),
   (strOf "center", commonAttrs),
   (strOf "span", commonAttrs),
   (strOf "h1", blockAttrs), (strOf "h2", blockAttrs), (strOf "h3", blockAttrs),
   (strOf "h4", blockAttrs), (strOf "h5", blockAttrs), (strOf "h6", blockAttrs),
   (strOf "bdo", commonAttrs),
   (strOf "em", commonAttrs), (strOf "strong", commonAttrs), (strOf "cite", commonAttrs),
   (strOf "dfn", commonAttrs), (strOf "code", commonAttrs), (strOf "samp", commonAttrs),
   (strOf "kbd", commonAttrs), (strOf "var", commonAttrs), (strOf "abbr", commonAttrs),
   (strOf "blockquote", commonAttrs ++ [strOf "cite"]),
   (strOf "q", commonAttrs ++ [strOf "cite"]),
   (strOf "sub", commonAttrs), (strOf "sup", commonAttrs),
   (strOf "p", blockAttrs),
   (strOf "br", commonAttrs ++ [strOf "clear"]),
   (strOf "wbr", commonAttrs),
   (strOf "pre", commonAttrs ++ [strOf "width"]),
   (strOf "ins", commonAttrs ++ [strOf "cite", strOf "datetime"]),
   (strOf "del", commonAttrs ++ [strOf "cite", strOf "datetime"]),
   (strOf "ul", commonAttrs ++ [strOf "type"]),
   (strOf "ol", commonAttrs ++ [strOf "type", strOf "start", strOf "reversed"]),
   (strOf "li", commonAttrs ++ [strOf "type", strOf "value"]),
   (strOf "dl", commonAttrs), (strOf "dd", commonAttrs), (strOf "dt", commonAttrs),
   (strOf "table", commonAttrs ++
     [strOf "summary", strOf "width", strOf "border", strOf "frame",
      strOf "rules", strOf "cellspacing", strOf "cellpadding",
      strOf "align", strOf "bgcolor"]),
   (strOf "caption", blockAttrs),
   (strOf "thead", commonAttrs), (strOf "tfoot", commonAttrs), (strOf "tbody", commonAttrs),
   (strOf "colgroup", commonAttrs ++ [strOf "span"]),
   (strOf "col", commonAttrs ++ [strOf "span"]),
   (strOf "tr", commonAlignAttrs ++ [strOf "bgcolor"]),
   (strOf "td", commonAlignCellAttrs),
   (strOf "th", commonAlignCellAttrs),
   (strOf "a", commonAttrs ++ [strOf "href", strOf "rel", strOf "rev"]),
   (strOf "img", commonAttrs ++
     [strOf "alt", strOf "src", strOf "width", strOf "height", strOf "srcset"]),
   (strOf "audio", commonAttrs ++
     [strOf "controls", strOf "preload", strOf "width", strOf "height"]),
   (strOf "video", commonAttrs ++
     [strOf "poster", strOf "controls", strOf "preload", strOf "width", strOf "height"]),
   (strOf "source", commonAttrs ++ [strOf "type", strOf "src"]),
   (strOf "track", commonAttrs ++
     [strOf "type", strOf "src", strOf "srclang", strOf "kind", strOf "label"]),
   (strOf "tt", commonAttrs), (strOf "b", commonAttrs), (strOf "i", commonAttrs),
   (strOf "big", commonAttrs), (strOf "small", commonAttrs),
   (strOf "strike", commonAttrs), (strOf "s", commonAttrs), (strOf "u", commonAttrs),
   (strOf "font", commonAttrs ++ [strOf "size", strOf "color", strOf "face"]),
   (strOf "hr", commonAttrs ++ [strOf "width"]),
   (strOf "ruby", commonAttrs), (strOf "rb", commonAttrs), (strOf "rp", commonAttrs),
   (strOf "rt", commonAttrs), (strOf "rtc", commonAttrs),
   (strOf "math", [strOf "class", strOf "style", strOf "id", strOf "title"]),
   (strOf "figure", commonAttrs), (strOf "figcaption", commonAttrs),
   (strOf "bdi", commonAttrs),
   (strOf "data", commonAttrs ++ [strOf "value"]),
   (strOf "time", commonAttrs ++ [strOf "datetime"]),
   (strOf "mark", commonAttrs),
   (strOf "meta", [strOf "itemprop", strOf "content"]),
   (strOf "link", [strOf "itemprop", strOf "href", strOf "title"]),
   (strOf "aside", commonAttrs)]

def attributesAllowed (element : Str) : List Str :=
  (((attributesAllowedTable.find? (fun p => p.1 = element)).map (fun p => p.2)).getD [])

/-- `dataAttrRegex` = `(?i:^data-[^:]*$)`. -/
def dataAttrOk (a : Str) : Bool :=
  (strOf "data-").isPrefixOf (lowerStr a) && (a.drop 5).all (fun c => !(c = ':'))

/-- `dataReservedRegex` = `(?i:^data-(ooui|mw|parsoid))`. -/
def dataReserved (a : Str) : Bool :=
  (strOf "data-ooui").isPrefixOf (lowerStr a) ||
  (strOf "data-mw").isPrefixOf (lowerStr a) ||
  (strOf "data-parsoid").isPrefixOf (lowerStr a)

/-- One iteration of `validateAttributes`' loop over the decoded map. -/
def validateAttributesStep (allowed : List Str) (out : List (Str × Str))
    (p : Str × Str) : Option (List (Str × Str)) :=
  if (¬ dataAttrOk p.1 ∧ ¬ allowed.contains p.1) ∨ dataReserved p.1 then
    some out
  else if p.1 = strOf "style" then
    match checkCSS p.2 with
    | none => none
    | some v => some (upsert out p.1 v)
  else if p.1 = strOf "id" then
    some (upsert out p.1 (escapeIDForAttribute p.2))
  else if p.1 = strOf "aria-describedby" ∨ p.1 = strOf "aria-flowto" ∨
      p.1 = strOf "aria-labelledby" ∨ p.1 = strOf "aria-owns" then
    some (upsert out p.1 (escapeIDReferenceList p.2))
  else if p.1 = strOf "rel" ∨ p.1 = strOf "rev" ∨
      p.1 = strOf "about" ∨ p.1 = strOf "property" ∨ p.1 = strOf "resource" ∨
      p.1 = strOf "datatype" ∨ p.1 = strOf "typeof" ∨
      p.1 = strOf "itemid" ∨ p.1 = strOf "itemprop" ∨ p.1 = strOf "itemref" ∨
      p.1 = strOf "itemscope" ∨ p.1 = strOf "itemtype" then
    if evilURIMatch p.2 then some out else some (upsert out p.1 p.2)
  else if p.1 = strOf "href" ∨ p.1 = strOf "src" ∨ p.1 = strOf "poster" then
    if ¬ hrefExpMatch p.2 then some out else some (upsert out p.1 p.2)
  else if p.1 = strOf "tabindex" then
    if ¬ p.2 = strOf "0" then some out else some (upsert out p.1 p.2)
  else
    some (upsert out p.1 p.2)

/-- The `itemscope` dependency pruning at the end of `validateAttributes`. -/
def itemscopePrune (out : List (Str × Str)) : List (Str × Str) :=
  if lookupA out (strOf "itemscope") = [] then
    out.filter (fun p =>
      ¬ (p.1 = strOf "itemtype" ∨ p.1 = strOf "itemid" ∨ p.1 = strOf "itemref"))
  else out

/-- `validateAttributes` normalizes attribute values and discards illegal
and unsafe values; `none` propagates the `checkCSS` panic.  (The Go map
iteration order is unspecified; the embedding processes the insertion
order, which does not affect the resulting map contents.) -/
def validateAttributes (attrs : List (Str × Str)) (allowed : List Str) :
    Option (List (Str × Str)) :=
  (attrs.foldlM (validateAttributesStep allowed) []).map itemscopePrune

def validateTagAttributes (attribs : List (Str × Str)) (element : Str) :
    Option (List (Str × Str)) :=
  validateAttributes attribs (attributesAllowed element)

/-- `encodeAttribute`: the `strings.NewReplacer` with single-character
patterns, applied characterwise. -/
def encodeAttributeChar (c : Char) : Str :=
  if c = '&' then strOf "&amp;"
  else if c = '<' then strOf "&lt;"
  else if c = '>' then strOf "&gt;"
  else if c = quoteC then strOf "&#34;"
  else if c = aposC then strOf "&#39;"
  else if c = '\n' then strOf "&#10;"
  else if c = '\r' then strOf "&#13;"
  else if c = '\t' then strOf "&#9;"
  else [c]

def encodeAttribute (s : Str) : Str := (s.map encodeAttributeChar).flatten

/-- The armoring `strings.NewReplacer` of `safeEncodeAttribute`, in
argument order (a `Replacer` applies the first pattern matching at each
position, left to right, without overlapping). -/
def armorPairs : List (Str × Str) :=
  [(strOf "<", strOf "&lt;"),
   (strOf ">", strOf "&gt;"),
   ([quoteC], strOf "&quot;"),
   (strOf "\x7b", strOf "&#123;"),
   (strOf "\x7d", strOf "&#125;"),
   (strOf "[", strOf "&#91;"),
   (strOf "]", strOf "&#93;"),
   ([aposC, aposC], strOf "&#39;&#39;"),
   (strOf "ISBN", strOf "&#73;SBN"),
   (strOf "RFC", strOf "&#82;FC"),
   (strOf "PMID", strOf "&#80;MID"),
   (strOf "|", strOf "&#124;"),
   (strOf "__", strOf "&#95;_")]

def pairsTry (pairs : List (Str × Str)) (s : Str) : Option (Str × Str) :=
  (pairs.find? (fun pr => pr.1.isPrefixOf s)).map
    (fun pr => (pr.2, s.drop pr.1.length))

def armorReplace (s : Str) : Str := scanRep (pairsTry armorPairs) s.length s

/-- `safeEncodeAttribute` encodes an attribute value with extra armoring
against further wiki processing. -/
def safeEncodeAttribute (s : Str) : Str :=
  protoReplaceColons (armorReplace (encodeAttribute s))

/-- The name escaping of `safeEncodeTagAttributes`
(`htmlspecialchars` with `ENT_COMPAT`). -/
def encodeNameChar (c : Char) : Str :=
  if c = '&' then strOf "&amp;"
  else if c = '<' then strOf "&lt;"
  else if c = '>' then strOf "&gt;"
  else if c = quoteC then strOf "&#34;"
  else [c]

def encodeName (s : Str) : Str := (s.map encodeNameChar).flatten

/-- `safeEncodeTagAttributes` builds a partial tag string, one
` name="value"` per attribute.  (Go iterates the map in unspecified order;
the embedding uses the list's insertion order.) -/
def safeEncodeTagAttributes (m : List (Str × Str)) : Str :=
  (m.map (fun p =>
    ' ' :: (encodeName p.1 ++ '=' :: quoteC :: (safeEncodeAttribute p.2 ++ [quoteC])))).flatten

/-- `fixTagAttributes`; `none` propagates the `checkCSS` panic. -/
def fixTagAttributes (text : Str) (element : Str) : Option Str :=
  if trimSpace text = [] then some []
  else
    match validateTagAttributes (decodeTagAttributes text) element with
    | none => none
    | some attrs => some (safeEncodeTagAttributes attrs)

/-- `validateTag` reports whether a tag is allowed to be present (`meta`
and `link` require Microdata attributes; the Go `default: panic`
branch of the switch is unreachable because the switch only runs for
those two elements). -/
def validateTag (params : Str) (element : Str) : Bool :=
  if ¬ element = strOf "meta" ∧ ¬ element = strOf "link" then true
  else
    let attrs := decodeTagAttributes params
    if element = strOf "meta" then
      ¬ (lookupA attrs (strOf "itemprop")).isEmpty ∧
        ¬ (lookupA attrs (strOf "content")).isEmpty
    else
      ¬ (lookupA attrs (strOf "itemprop")).isEmpty ∧
        ¬ (lookupA attrs (strOf "href")).isEmpty

/-- Escape `>` to `&gt;` (Go `strings.ReplaceAll(t, ">", "&gt;")`). -/
def replaceGt (s : Str) : Str := charReplace '>' (strOf "&gt;") s

/-- One loop iteration of `RemoveHTMLTags` over a chunk `t` that followed
a `<` in the split input; `none` propagates the `checkCSS` panic. -/
def chunkOut (t : Str) : Option Str :=
  match elementBits t with
  | none => some (strOf "&lt;" ++ replaceGt t)
  | some (slash, tag0, params0, brace0, rest0) =>
    let tag := lowerStr tag0
    if ¬ htmlElements.contains tag then some (strOf "&lt;" ++ replaceGt t)
    else if ¬ validateTag params0 tag then some (strOf "&lt;" ++ replaceGt t)
    else
      match fixTagAttributes params0 tag with
      | none => none
      | some params =>
        let brace1 :=
          if brace0 = strOf "/>" ∧ ¬ (htmlSingle.contains tag ∨ htmlSingleOnly.contains tag)
          then strOf ">" else brace0
        let brace2 :=
          if brace1 = strOf "/>" ∧ ¬ htmlSingleOnly.contains tag
          then strOf "></" ++ tag ++ strOf ">" else brace1
        some ('<' :: (slash ++ tag ++ params ++ brace2 ++ replaceGt rest0))

/-- `RemoveHTMLTags` cleans up HTML: removes HTML comments and dangerous
tags and attributes, and escapes invalid tags.  `none` models the runtime
panic that `normalizeCSS` raises on a `nil` submatch result. -/
def removeHTMLTags (s : Str) : Option Str :=
  let s1 := removeHTMLComments s
  match splitChar '<' s1 with
  | [] => some []
  | p0 :: rest =>
    match rest.mapM chunkOut with
    | none => none
    | some outs => some (replaceGt p0 ++ outs.flatten)

/-- **C1** (code bug).  The claim says `RemoveHTMLTags` is total and never
panics, in particular on tags carrying a `style` attribute.  In fact
`normalizeCSS` indexes `matches[1]` of `decodeEscapeRegex.FindStringSubmatch`,
which is `nil` whenever the decoded value contains no two consecutive
backslashes, so any ordinary style value panics: here the code is evaluated
at the failing input `<b style="color:red">` (`none` = panic). -/
theorem C1_style_attribute_panics :
    checkCSS (strOf "color:red") = none ∧
    removeHTMLTags (strOf "<b style=\"color:red\">") = none := by
  constructor
  · decide
  · decide

/-- **C3** (code bug).  The claim says `RemoveHTMLTags` is idempotent.  In
fact the armoring pass rewrites `ISBN` to `&#73;SBN`, and a second pass
feeds the full match `&#73;` (not `73`) to `decodeDec`, which fails and
yields U+FFFD: sanitizing `<b title="ISBN">` twice is not a fixed point. -/
theorem C3_not_idempotent :
    removeHTMLTags (strOf "<b title=\"ISBN\">") = some (strOf "<b title=\"&#73;SBN\">") ∧
    removeHTMLTags (strOf "<b title=\"&#73;SBN\">") =
      some (strOf "<b title=\"�SBN\">") ∧
    strOf "<b title=\"�SBN\">" ≠ strOf "<b title=\"&#73;SBN\">" := by
  refine ⟨by decide, by decide, by decide⟩

/-- **C4** (code bug).  The claim says `decodeCharReferences` maps valid
numeric references to their code points (`&#65;` to `A`).  In fact
`ReplaceAllStringFunc` hands the whole match (`&#65;`, not `65`) to
`decodeDec`/`decodeHex`, whose numeral parse always fails, so every
numeric reference — valid or not — collapses to U+FFFD. -/
theorem C4_numeric_references_always_replacement :
    decodeCharReferences (strOf "&#65;") = strOf "�" ∧
    decodeCharReferences (strOf "&#x41;") = strOf "�" ∧
    strOf "�" ≠ strOf "A" := by
  refine ⟨by decide, by decide, by decide⟩

/-- **C5 counterexample**.  The claim says `<b/>` renders as `<b></b>` and
`<div/>` as `<div></div>`; in fact the first self-closing fixup rewrites
the closer of a non-self-closable tag to a plain `>`, so `<b/>` renders as
`<b>`. -/
theorem C5_counterexample :
    removeHTMLTags (strOf "<b/>") = some (strOf "<b>") ∧
    strOf "<b>" ≠ strOf "<b></b>" := by
  refine ⟨by decide, by decide⟩

/-- **C5** (corrected).  The self-closing fixups as implemented: for a tag
that is neither self-closable nor void the stray slash is dropped (`<b/>`
→ `<b>`, `<div/>` → `<div>`); a self-closable non-void tag becomes an
explicit empty element (`<li/>` → `<li></li>`); a void-only tag is kept
unchanged (`<br/>` → `<br/>`). -/
theorem C5_self_closing_fixups :
    removeHTMLTags (strOf "<b/>") = some (strOf "<b>") ∧
    removeHTMLTags (strOf "<div/>") = some (strOf "<div>") ∧
    removeHTMLTags (strOf "<li/>") = some (strOf "<li></li>") ∧
    removeHTMLTags (strOf "<br/>") = some (strOf "<br/>") := by
  refine ⟨by decide, by decide, by decide, by decide⟩

/-- **C6** (code bug).  The claim says a style value containing
`expression` is replaced by the fixed diagnostic comment.  In fact
`checkCSS("expression(alert(1))")` never reaches the keyword screen: the
value contains no two consecutive backslashes, so `normalizeCSS` panics on
the `nil` submatch result (`none` = panic), and the diagnostic is not
produced. -/
theorem C6_expression_panics_before_diagnostic :
    normalizeCSS (strOf "expression(alert(1))") = none ∧
    checkCSS (strOf "expression(alert(1))") = none ∧
    checkCSS (strOf "expression(alert(1))") ≠ some (strOf "/* insecure input */") := by
  refine ⟨by decide, by decide, by decide⟩

/-! ### Claim C10: armored attribute values contain no quote or angle
bracket characters -/

/-- The characters that must not survive `safeEncodeAttribute`. -/
def armorSafe (c : Char) : Prop :=
  c ≠ '<' ∧ c ≠ '>' ∧ c ≠ quoteC ∧ c ≠ aposC

instance (c : Char) : Decidable (armorSafe c) := by
  unfold armorSafe
  infer_instance

theorem encodeAttributeChar_armorSafe (d : Char) :
    ∀ c ∈ encodeAttributeChar d, armorSafe c := by
  unfold encodeAttributeChar
  split_ifs with h1 h2 h3 h4 h5 h6 h7 h8
  · exact fun c hc => (by decide : ∀ x ∈ strOf "&amp;", armorSafe x) c hc
  · exact fun c hc => (by decide : ∀ x ∈ strOf "&lt;", armorSafe x) c hc
  · exact fun c hc => (by decide : ∀ x ∈ strOf "&gt;", armorSafe x) c hc
  · exact fun c hc => (by decide : ∀ x ∈ strOf "&#34;", armorSafe x) c hc
  · exact fun c hc => (by decide : ∀ x ∈ strOf "&#39;", armorSafe x) c hc
  · exact fun c hc => (by decide : ∀ x ∈ strOf "&#10;", armorSafe x) c hc
  · exact fun c hc => (by decide : ∀ x ∈ strOf "&#13;", armorSafe x) c hc
  · exact fun c hc => (by decide : ∀ x ∈ strOf "&#9;", armorSafe x) c hc
  · intro c hc
    simp at hc
    subst hc
    exact ⟨h2, h3, h4, h5⟩

theorem encodeAttribute_armorSafe (s : Str) :
    ∀ c ∈ encodeAttribute s, armorSafe c := by
  intro c hc
  unfold encodeAttribute at hc
  rcases List.mem_flatten.mp hc with ⟨piece, hpm, hcp⟩
  rcases List.mem_map.mp hpm with ⟨d, _, hd⟩
  subst hd
  exact encodeAttributeChar_armorSafe d c hcp

theorem scanRep_safe {P : Char → Prop} {tryM : Str → Option (Str × Str)}
    (htry : ∀ s rep rest, (∀ c ∈ s, P c) → tryM s = some (rep, rest) →
      (∀ c ∈ rep, P c) ∧ (∀ c ∈ rest, P c)) :
    ∀ (fuel : Nat) (s : Str), (∀ c ∈ s, P c) → ∀ c ∈ scanRep tryM fuel s, P c := by
  intro fuel
  induction fuel with
  | zero => intro s hs c hc; exact hs c hc
  | succ fuel ih =>
    intro s hs c hc
    match s with
    | [] => simp [scanRep] at hc
    | d :: ds =>
      unfold scanRep at hc
      cases htm : tryM (d :: ds) with
      | some pr =>
        rw [htm] at hc
        rcases htry _ _ _ hs htm with ⟨hrep, hrest⟩
        rcases List.mem_append.mp hc with hc | hc
        · exact hrep c hc
        · exact ih _ hrest c hc
      | none =>
        rw [htm] at hc
        rcases List.mem_cons.mp hc with hc | hc
        · subst hc; exact hs c (List.mem_cons_self _ _)
        · exact ih _ (fun e he => hs e (List.mem_cons_of_mem _ he)) c hc

theorem armorPairs_try_safe :
    ∀ (s rep rest : Str), (∀ c ∈ s, armorSafe c) →
      pairsTry armorPairs s = some (rep, rest) →
      (∀ c ∈ rep, armorSafe c) ∧ (∀ c ∈ rest, armorSafe c) := by
  intro s rep rest hs htm
  unfold pairsTry at htm
  cases hf : armorPairs.find? (fun pr => pr.1.isPrefixOf s) with
  | none => rw [hf] at htm; cases htm
  | some pr =>
    rw [hf] at htm
    simp at htm
    have hmem : pr ∈ armorPairs := List.mem_of_find?_eq_some hf
    have hall : ∀ q ∈ armorPairs, ∀ x ∈ q.2, armorSafe x := by decide
    constructor
    · intro c hc
      rw [← htm.1] at hc
      exact hall pr hmem c hc
    · intro c hc
      rw [← htm.2] at hc
      exact hs c (List.drop_subset _ _ hc)

theorem protoTry_safe :
    ∀ (s rep rest : Str), (∀ c ∈ s, armorSafe c) →
      protoTry s = some (rep, rest) →
      (∀ c ∈ rep, armorSafe c) ∧ (∀ c ∈ rest, armorSafe c) := by
  intro s rep rest hs htm
  unfold protoTry at htm
  cases hf : protocols.find? (fun p => ciPref s p) with
  | none => rw [hf] at htm; cases htm
  | some p =>
    rw [hf] at htm
    simp at htm
    constructor
    · intro c hc
      rw [← htm.1] at hc
      unfold charReplace at hc
      rcases List.mem_flatten.mp hc with ⟨piece, hpm, hcp⟩
      rcases List.mem_map.mp hpm with ⟨d, hdm, hd⟩
      subst hd
      by_cases hdc : d = ':'
      · rw [if_pos hdc] at hcp
        exact (by decide : ∀ x ∈ strOf "&#58;", armorSafe x) c hcp
      · rw [if_neg hdc] at hcp
        simp at hcp
        subst hcp
        exact hs c (List.take_subset _ _ hdm)
    · intro c hc
      rw [← htm.2] at hc
      exact hs c (List.drop_subset _ _ hc)

theorem safeEncodeAttribute_armorSafe (s : Str) :
    ∀ c ∈ safeEncodeAttribute s, armorSafe c := by
  intro c hc
  unfold safeEncodeAttribute at hc
  have h1 := encodeAttribute_armorSafe s
  have h2 := scanRep_safe armorPairs_try_safe (encodeAttribute s).length
    (encodeAttribute s) h1
  have h3 := scanRep_safe protoTry_safe (armorReplace (encodeAttribute s)).length
    (armorReplace (encodeAttribute s)) h2
  exact h3 c hc

/-- **C10** (confirmed).  For every input string `s`, the output of
`safeEncodeAttribute(s)` contains no literal `<`, `>`, `"`, or `'`
character (every occurrence is replaced by a character reference), so a
sanitized attribute value embedded as `name="value"` can never terminate
its surrounding double-quoted attribute or begin a new tag. -/
theorem C10_safeEncodeAttribute_armored (s : Str) :
    ∀ c ∈ safeEncodeAttribute s, c ≠ '<' ∧ c ≠ '>' ∧ c ≠ quoteC ∧ c ≠ aposC :=
  fun c hc => safeEncodeAttribute_armorSafe s c hc

/-- Witness for C10 at a concrete input: `safeEncodeAttribute("<a>")`
contains the character `&`, which is none of the four banned characters. -/
theorem C10_safeEncodeAttribute_witness :
    '&' ∈ safeEncodeAttribute (strOf "<a>") ∧
    ('&' ≠ '<' ∧ '&' ≠ '>' ∧ '&' ≠ quoteC ∧ '&' ≠ aposC) :=
  ⟨by decide, C10_safeEncodeAttribute_armored (strOf "<a>") '&' (by decide)⟩

/-! ### Claim C2: structure of `removeHTMLTags` output

The output is a concatenation of segments, each either angle-bracket-free
text or a well-formed tag over the valid-element set whose surviving
`href`/`src`/`poster` attributes passed the protocol allow-list (hence
carry no `javascript:`/`vbscript:` scheme); and the output never contains
the substring `<script`. -/

/-- Whether a value uses a `javascript:` or `vbscript:` scheme. -/
def schemeEvil (v : Str) : Bool :=
  (strOf "javascript:").isPrefixOf (lowerStr v) ||
  (strOf "vbscript:").isPrefixOf (lowerStr v)

/-- An output segment: inert text, or an emitted tag
`<` slash name attributes closer. -/
inductive Seg where
  | text : Str → Seg
  | tag : Str → Str → List (Str × Str) → Str → Seg

def Seg.render : Seg → Str
  | .text t => t
  | .tag sl nm attrs cl => '<' :: (sl ++ nm ++ safeEncodeTagAttributes attrs ++ cl)

/-- Well-formedness of a segment: text holds no raw `<`/`>`; a tag has an
optional slash, a name from the valid-element set, a `>` or `/>` closer,
and every surviving `href`/`src`/`poster` attribute value passed the
protocol allow-list and uses no `javascript:`/`vbscript:` scheme. -/
def Seg.Ok : Seg → Prop
  | .text t => '<' ∉ t ∧ '>' ∉ t
  | .tag sl nm attrs cl =>
      (sl = [] ∨ sl = ['/']) ∧ nm ∈ htmlElements ∧
      (cl = ['>'] ∨ cl = ['/', '>']) ∧
      ∀ p ∈ attrs,
        (p.1 = strOf "href" ∨ p.1 = strOf "src" ∨ p.1 = strOf "poster") →
          hrefExpMatch p.2 = true ∧ schemeEvil p.2 = false

def segsRender (segs : List Seg) : Str := (segs.map Seg.render).flatten

/-- The output shape claimed by C2: a concatenation of well-formed
segments. -/
def GoodOut (out : Str) : Prop :=
  ∃ segs : List Seg, out = segsRender segs ∧ ∀ g ∈ segs, g.Ok

theorem segsRender_append (s1 s2 : List Seg) :
    segsRender (s1 ++ s2) = segsRender s1 ++ segsRender s2 := by
  unfold segsRender
  rw [List.map_append, List.flatten_append]

theorem replaceGt_no_gt (s : Str) : '>' ∉ replaceGt s := by
  intro hc
  unfold replaceGt charReplace at hc
  rcases List.mem_flatten.mp hc with ⟨piece, hpm, hcp⟩
  rcases List.mem_map.mp hpm with ⟨d, _, hd⟩
  subst hd
  by_cases hdc : d = '>'
  · rw [if_pos hdc] at hcp
    exact absurd hcp (by decide)
  · rw [if_neg hdc] at hcp
    simp at hcp
    exact hdc hcp.symm

theorem replaceGt_no_lt {s : Str} (h : '<' ∉ s) : '<' ∉ replaceGt s := by
  intro hc
  unfold replaceGt charReplace at hc
  rcases List.mem_flatten.mp hc with ⟨piece, hpm, hcp⟩
  rcases List.mem_map.mp hpm with ⟨d, hdm, hd⟩
  subst hd
  by_cases hdc : d = '>'
  · rw [if_pos hdc] at hcp
    exact absurd hcp (by decide)
  · rw [if_neg hdc] at hcp
    simp at hcp
    subst hcp
    exact h hdm

theorem escapedChunk_ok {t : Str} (h : '<' ∉ t) :
    (Seg.Ok (Seg.text (strOf "&lt;" ++ replaceGt t))) := by
  constructor
  · intro hc
    rcases List.mem_append.mp hc with hc | hc
    · exact absurd hc (by decide)
    · exact replaceGt_no_lt h hc
  · intro hc
    rcases List.mem_append.mp hc with hc | hc
    · exact absurd hc (by decide)
    · exact replaceGt_no_gt _ hc

theorem encodeName_no_angle (s : Str) :
    ∀ c ∈ encodeName s, c ≠ '<' ∧ c ≠ '>' := by
  intro c hc
  unfold encodeName at hc
  rcases List.mem_flatten.mp hc with ⟨piece, hpm, hcp⟩
  rcases List.mem_map.mp hpm with ⟨d, _, hd⟩
  subst hd
  unfold encodeNameChar at hcp
  split_ifs at hcp with h1 h2 h3 h4
  · exact (by decide : ∀ x ∈ strOf "&amp;", x ≠ '<' ∧ x ≠ '>') c hcp
  · exact (by decide : ∀ x ∈ strOf "&lt;", x ≠ '<' ∧ x ≠ '>') c hcp
  · exact (by decide : ∀ x ∈ strOf "&gt;", x ≠ '<' ∧ x ≠ '>') c hcp
  · exact (by decide : ∀ x ∈ strOf "&#34;", x ≠ '<' ∧ x ≠ '>') c hcp
  · simp at hcp
    subst hcp
    exact ⟨h2, h3⟩

theorem seta_no_angle (attrs : List (Str × Str)) :
    ∀ c ∈ safeEncodeTagAttributes attrs, c ≠ '<' ∧ c ≠ '>' := by
  intro c hc
  unfold safeEncodeTagAttributes at hc
  rcases List.mem_flatten.mp hc with ⟨piece, hpm, hcp⟩
  rcases List.mem_map.mp hpm with ⟨p, _, hp⟩
  subst hp
  rcases List.mem_cons.mp hcp with hc1 | hc1
  · subst hc1; exact ⟨by decide, by decide⟩
  rcases List.mem_append.mp hc1 with hc2 | hc2
  · exact encodeName_no_angle _ c hc2
  rcases List.mem_cons.mp hc2 with hc3 | hc3
  · subst hc3; exact ⟨by decide, by decide⟩
  rcases List.mem_cons.mp hc3 with hc4 | hc4
  · subst hc4; exact ⟨by decide, by decide⟩
  rcases List.mem_append.mp hc4 with hc5 | hc5
  · have := safeEncodeAttribute_armorSafe p.2 c hc5
    exact ⟨this.1, this.2.1⟩
  · rcases List.mem_singleton.mp hc5 with rfl
    exact ⟨by decide, by decide⟩

theorem seta_cons (p : Str × Str) (ps : List (Str × Str)) :
    safeEncodeTagAttributes (p :: ps) =
      (' ' :: (encodeName p.1 ++ '=' :: quoteC :: (safeEncodeAttribute p.2 ++ [quoteC]))) ++
        safeEncodeTagAttributes ps := by
  unfold safeEncodeTagAttributes
  rw [List.map_cons, List.flatten_cons]

theorem hrefExpMatch_not_evil {v : Str} (h : hrefExpMatch v = true) :
    schemeEvil v = false := by
  unfold hrefExpMatch at h
  simp only [Bool.and_eq_true] at h
  obtain ⟨hany, _⟩ := h
  rcases List.any_eq_true.mp hany with ⟨p, hpmem, hpp⟩
  simp only [Bool.and_eq_true] at hpp
  obtain ⟨hpref, _⟩ := hpp
  have hpne : p ≠ [] := (by decide : ∀ q ∈ protocols, q ≠ []) p hpmem
  obtain ⟨c, p', rfl⟩ : ∃ c p', p = c :: p' := by
    cases p with
    | nil => exact absurd rfl hpne
    | cons c p' => exact ⟨c, p', rfl⟩
  have hvp : (c :: p') <+: v := (List.isPrefixOf_iff_prefix).mp hpref
  obtain ⟨t, ht⟩ := hvp
  have hv : v = c :: (p' ++ t) := ht.symm
  have hhead : ∀ q ∈ protocols, asciiLower (q.headD ' ') ≠ 'j' ∧
      asciiLower (q.headD ' ') ≠ 'v' := by decide
  have hcj : asciiLower c ≠ 'j' := (hhead _ hpmem).1
  have hcv : asciiLower c ≠ 'v' := (hhead _ hpmem).2
  unfold schemeEvil
  rw [hv]
  unfold lowerStr
  rw [List.map_cons]
  apply Bool.or_eq_false_iff.mpr
  constructor
  · rw [Bool.eq_false_iff]
    intro hbad
    have := (List.isPrefixOf_iff_prefix).mp hbad
    obtain ⟨t2, ht2⟩ := this
    have : asciiLower c = 'j' := by
      have := congrArg (fun l => l.headD ' ') ht2
      simpa [strOf] using this.symm
    exact hcj this
  · rw [Bool.eq_false_iff]
    intro hbad
    have := (List.isPrefixOf_iff_prefix).mp hbad
    obtain ⟨t2, ht2⟩ := this
    have : asciiLower c = 'v' := by
      have := congrArg (fun l => l.headD ' ') ht2
      simpa [strOf] using this.symm
    exact hcv this

theorem upsert_mem {m : List (Str × Str)} {k v : Str} {p : Str × Str}
    (h : p ∈ upsert m k v) : p = (k, v) ∨ (p ∈ m ∧ p.1 ≠ k) := by
  unfold upsert at h
  split at h
  · next hany =>
    rcases List.mem_map.mp h with ⟨q, hqm, hq⟩
    by_cases hk : q.1 = k
    · rw [if_pos hk] at hq
      exact Or.inl hq.symm
    · rw [if_neg hk] at hq
      subst hq
      exact Or.inr ⟨hqm, hk⟩
  · next hany =>
    rcases List.mem_append.mp h with hm | hm
    · refine Or.inr ⟨hm, ?_⟩
      intro hk
      exact hany (List.any_eq_true.mpr ⟨p, hm, by simp [hk]⟩)
    · exact Or.inl (List.mem_singleton.mp hm)

/-- Invariant preserved by one `validateAttributes` step: every surviving
`href`/`src`/`poster` entry passed `hrefExp`. -/
def HrefInv (out : List (Str × Str)) : Prop :=
  ∀ p ∈ out, (p.1 = strOf "href" ∨ p.1 = strOf "src" ∨ p.1 = strOf "poster") →
    hrefExpMatch p.2 = true

theorem validateAttributesStep_href {allowed : List Str}
    {out out' : List (Str × Str)} {q : Str × Str}
    (hstep : validateAttributesStep allowed out q = some out')
    (hinv : HrefInv out) : HrefInv out' := by
  unfold validateAttributesStep at hstep
  have hup : ∀ (k v : Str),
      (k = strOf "href" ∨ k = strOf "src" ∨ k = strOf "poster" →
        hrefExpMatch v = true) →
      HrefInv (upsert out k v) := by
    intro k v hkv p hp hph
    rcases upsert_mem hp with hpe | ⟨hpm, hpk⟩
    · subst hpe
      exact hkv hph
    · exact hinv p hpm hph
  split_ifs at hstep with h1 h2 h3 h4 h5 h6 h7 h8 h9 h10
  · cases hstep; exact hinv
  · cases hcss : checkCSS q.2 with
    | none => rw [hcss] at hstep; cases hstep
    | some v =>
      rw [hcss] at hstep
      cases hstep
      apply hup
      intro hbad
      rcases hbad with hbad | hbad | hbad <;> (rw [h2] at hbad; exact absurd hbad (by decide))
  · cases hstep
    apply hup
    intro hbad
    rcases hbad with hbad | hbad | hbad <;> (rw [h3] at hbad; exact absurd hbad (by decide))
  · cases hstep
    apply hup
    intro hbad
    rcases h4 with h4 | h4 | h4 | h4 <;>
      (rcases hbad with hbad | hbad | hbad <;> (rw [h4] at hbad; exact absurd hbad (by decide)))
  · cases hstep; exact hinv
  · cases hstep
    apply hup
    intro hbad
    rcases h5 with h5 | h5 | h5 | h5 | h5 | h5 | h5 | h5 | h5 | h5 | h5 | h5 <;>
      (rcases hbad with hbad | hbad | hbad <;> (rw [h5] at hbad; exact absurd hbad (by decide)))
  · cases hstep
    apply hup
    intro _
    exact h8
  · cases hstep; exact hinv
  · cases hstep
    apply hup
    intro hbad
    rcases hbad with hbad | hbad | hbad <;> (rw [h9] at hbad; exact absurd hbad (by decide))
  · cases hstep; exact hinv
  · cases hstep
    apply hup
    intro hbad
    exact absurd hbad h7

theorem splitChar_no_sep (sep : Char) :
    ∀ s : Str, ∀ piece ∈ splitChar sep s, sep ∉ piece := by
  intro s
  induction s with
  | nil =>
    intro piece hp
    simp only [splitChar, List.mem_singleton] at hp
    subst hp
    exact List.not_mem_nil sep
  | cons c cs ih =>
    intro piece hp
    unfold splitChar at hp
    by_cases hc : c = sep
    · rw [if_pos hc] at hp
      rcases List.mem_cons.mp hp with rfl | hp
      · exact List.not_mem_nil sep
      · exact ih piece hp
    · rw [if_neg hc] at hp
      cases hm : splitChar sep cs with
      | nil =>
        rw [hm] at hp
        rcases List.mem_singleton.mp hp with rfl
        intro hmem
        rcases List.mem_singleton.mp hmem with rfl
        exact hc rfl
      | cons f fs =>
        rw [hm] at hp
        rcases List.mem_cons.mp hp with rfl | hp
        · intro hmem
          rcases List.mem_cons.mp hmem with rfl | hmem
          · exact hc rfl
          · exact ih f (by rw [hm]; exact List.mem_cons_self f fs) hmem
        · exact ih piece (by rw [hm]; exact List.mem_cons_of_mem f hp)

theorem elementBits_shape {t : Str} {sl tag ps br rest : Str}
    (h : elementBits t = some (sl, tag, ps, br, rest)) :
    (sl = [] ∨ sl = ['/']) ∧ (br = ['>'] ∨ br = ['/', '>']) ∧ '<' ∉ rest := by
  cases t with
  | nil => exact absurd h (by simp [elementBits])
  | cons c cs =>
    simp only [elementBits] at h
    split at h
    · exact absurd h (by simp)
    · next d ds hu =>
      split at h
      · exact absurd h (by simp)
      · split at h
        · exact absurd h (by simp)
        · next q0 hq =>
          split at h
          · exact absurd h (by simp)
          · next hany =>
            split at h <;>
            · simp only [Option.some.injEq, Prod.mk.injEq] at h
              obtain ⟨h1, h2, h3, h4, h5⟩ := h
              subst h1
              subst h4
              subst h5
              refine ⟨?_, ?_, ?_⟩
              · by_cases hc : c = '/'
                · rw [if_pos hc]; exact Or.inr rfl
                · rw [if_neg hc]; exact Or.inl rfl
              · first
                | exact Or.inr (by decide)
                | exact Or.inl (by decide)
              · intro hmem
                exact hany (List.any_eq_true.mpr ⟨'<', hmem, by simp⟩)

theorem foldlM_href {allowed : List Str} :
    ∀ (l : List (Str × Str)) (init r : List (Str × Str)),
      HrefInv init →
      l.foldlM (validateAttributesStep allowed) init = some r → HrefInv r := by
  intro l
  induction l with
  | nil =>
    intro init r hinv h
    rw [List.foldlM_nil] at h
    simp only [pure, Option.some.injEq] at h
    subst h
    exact hinv
  | cons a l ih =>
    intro init r hinv h
    rw [List.foldlM_cons] at h
    cases hs : validateAttributesStep allowed init a with
    | none => rw [hs] at h; exact absurd h (by simp)
    | some mid =>
      rw [hs] at h
      have h' : l.foldlM (validateAttributesStep allowed) mid = some r := h
      exact ih mid r (validateAttributesStep_href hs hinv) h'

theorem validateAttributes_href {attrs : List (Str × Str)} {allowed : List Str}
    {out : List (Str × Str)}
    (h : validateAttributes attrs allowed = some out) : HrefInv out := by
  unfold validateAttributes at h
  cases hf : attrs.foldlM (validateAttributesStep allowed) [] with
  | none => rw [hf] at h; exact absurd h (by simp)
  | some mid =>
    rw [hf] at h
    simp only [Option.map_some', Option.some.injEq] at h
    have hmid : HrefInv mid :=
      foldlM_href attrs [] mid
        (by intro p hp _; exact absurd hp (List.not_mem_nil p)) hf
    subst h
    intro p hp hph
    unfold itemscopePrune at hp
    split at hp
    · exact hmid p (List.mem_of_mem_filter hp) hph
    · exact hmid p hp hph

theorem fixTagAttributes_shape {text el params : Str}
    (h : fixTagAttributes text el = some params) :
    ∃ attrs : List (Str × Str), params = safeEncodeTagAttributes attrs ∧
      ∀ p ∈ attrs,
        (p.1 = strOf "href" ∨ p.1 = strOf "src" ∨ p.1 = strOf "poster") →
          hrefExpMatch p.2 = true ∧ schemeEvil p.2 = false := by
  unfold fixTagAttributes at h
  by_cases ht : trimSpace text = []
  · rw [if_pos ht] at h
    injection h with h
    refine ⟨[], h.symm, ?_⟩
    intro p hp
    exact absurd hp (List.not_mem_nil p)
  · rw [if_neg ht] at h
    cases hv : validateTagAttributes (decodeTagAttributes text) el with
    | none => rw [hv] at h; exact absurd h (by simp)
    | some attrs =>
      rw [hv] at h
      injection h with h
      refine ⟨attrs, h.symm, ?_⟩
      intro p hp hph
      have hv' : validateAttributes (decodeTagAttributes text)
          (attributesAllowed el) = some attrs := hv
      have h1 := validateAttributes_href hv' p hp hph
      exact ⟨h1, hrefExpMatch_not_evil h1⟩

theorem GoodOut_nil : GoodOut [] :=
  ⟨[], rfl, by intro g hg; exact absurd hg (List.not_mem_nil g)⟩

theorem GoodOut_append {a b : Str} (ha : GoodOut a) (hb : GoodOut b) :
    GoodOut (a ++ b) := by
  obtain ⟨sa, rfl, hga⟩ := ha
  obtain ⟨sb, rfl, hgb⟩ := hb
  refine ⟨sa ++ sb, (segsRender_append sa sb).symm, ?_⟩
  intro g hg
  rcases List.mem_append.mp hg with hg | hg
  · exact hga g hg
  · exact hgb g hg

theorem GoodOut_escaped {t : Str} (h : '<' ∉ t) :
    GoodOut (strOf "&lt;" ++ replaceGt t) := by
  refine ⟨[Seg.text (strOf "&lt;" ++ replaceGt t)], ?_, ?_⟩
  · simp [segsRender, Seg.render]
  · intro g hg
    rcases List.mem_singleton.mp hg with rfl
    exact escapedChunk_ok h

theorem GoodOut_text {t : Str} (h : '<' ∉ t) : GoodOut (replaceGt t) := by
  refine ⟨[Seg.text (replaceGt t)], by simp [segsRender, Seg.render], ?_⟩
  intro g hg
  rcases List.mem_singleton.mp hg with rfl
  exact ⟨replaceGt_no_lt h, replaceGt_no_gt t⟩

theorem htmlElements_no_lt : ∀ nm ∈ htmlElements, '<' ∉ nm := by decide

theorem tagBody_no_angle {sl nm : Str} {attrs : List (Str × Str)} {cl : Str}
    (hok : Seg.Ok (Seg.tag sl nm attrs cl)) :
    '<' ∉ (sl ++ nm ++ safeEncodeTagAttributes attrs ++ cl) := by
  obtain ⟨hsl, hnm, hcl, _⟩ := hok
  intro hm
  rcases List.mem_append.mp hm with hm | hm
  · rcases List.mem_append.mp hm with hm | hm
    · rcases List.mem_append.mp hm with hm | hm
      · rcases hsl with rfl | rfl
        · exact absurd hm (List.not_mem_nil _)
        · exact absurd hm (by decide)
      · exact htmlElements_no_lt nm hnm hm
    · exact (seta_no_angle attrs '<' hm).1 rfl
  · rcases hcl with rfl | rfl
    · exact absurd hm (by decide)
    · exact absurd hm (by decide)

theorem GoodOut_tag {slash tag : Str} {attrs : List (Str × Str)}
    {cl rest0 : Str}
    (hsl : slash = [] ∨ slash = ['/']) (htag : tag ∈ htmlElements)
    (hcl : cl = ['>'] ∨ cl = ['/', '>']) (hrest : '<' ∉ rest0)
    (hattrs : ∀ p ∈ attrs,
      (p.1 = strOf "href" ∨ p.1 = strOf "src" ∨ p.1 = strOf "poster") →
        hrefExpMatch p.2 = true ∧ schemeEvil p.2 = false) :
    GoodOut ('<' :: (slash ++ tag ++ safeEncodeTagAttributes attrs ++ cl ++
      replaceGt rest0)) := by
  refine ⟨[Seg.tag slash tag attrs cl, Seg.text (replaceGt rest0)], ?_, ?_⟩
  · simp [segsRender, Seg.render, List.append_assoc]
  · intro g hg
    rcases List.mem_cons.mp hg with rfl | hg
    · exact ⟨hsl, htag, hcl, hattrs⟩
    · rcases List.mem_singleton.mp hg with rfl
      exact ⟨replaceGt_no_lt hrest, replaceGt_no_gt rest0⟩

theorem GoodOut_tag_close {slash tag : Str} {attrs : List (Str × Str)}
    {rest0 : Str}
    (hsl : slash = [] ∨ slash = ['/']) (htag : tag ∈ htmlElements)
    (hrest : '<' ∉ rest0)
    (hattrs : ∀ p ∈ attrs,
      (p.1 = strOf "href" ∨ p.1 = strOf "src" ∨ p.1 = strOf "poster") →
        hrefExpMatch p.2 = true ∧ schemeEvil p.2 = false) :
    GoodOut ('<' :: (slash ++ tag ++ safeEncodeTagAttributes attrs ++
      (strOf "></" ++ tag ++ strOf ">") ++ replaceGt rest0)) := by
  refine ⟨[Seg.tag slash tag attrs ['>'], Seg.tag ['/'] tag [] ['>'],
    Seg.text (replaceGt rest0)], ?_, ?_⟩
  · have e1 : strOf "></" = ['>', '<', '/'] := rfl
    have e2 : strOf ">" = ['>'] := rfl
    simp [segsRender, Seg.render, safeEncodeTagAttributes, e1, e2,
      List.append_assoc]
  · intro g hg
    rcases List.mem_cons.mp hg with rfl | hg
    · exact ⟨hsl, htag, Or.inl rfl, hattrs⟩
    rcases List.mem_cons.mp hg with rfl | hg
    · exact ⟨Or.inr rfl, htag, Or.inl rfl,
        by intro p hp; exact absurd hp (List.not_mem_nil p)⟩
    rcases List.mem_singleton.mp hg with rfl
    exact ⟨replaceGt_no_lt hrest, replaceGt_no_gt rest0⟩

theorem chunkOut_good {t o : Str} (hlt : '<' ∉ t) (h : chunkOut t = some o) :
    GoodOut o := by
  unfold chunkOut at h
  cases heb : elementBits t with
  | none =>
    rw [heb] at h
    injection h with h
    subst h
    exact GoodOut_escaped hlt
  | some tup =>
    obtain ⟨slash, tag0, params0, brace0, rest0⟩ := tup
    obtain ⟨hsl, hbr, hrest⟩ := elementBits_shape heb
    rw [heb] at h
    simp only [] at h
    split_ifs at h with h1 h2 h3 h4 h5
    · exact absurd h4.1 (by decide)
    · cases hf : fixTagAttributes params0 (lowerStr tag0) with
      | none => rw [hf] at h; exact absurd h (by simp)
      | some params =>
        rw [hf] at h
        simp only [Option.some.injEq] at h
        subst h
        obtain ⟨attrs, rfl, hattrs⟩ := fixTagAttributes_shape hf
        exact GoodOut_tag hsl (List.mem_of_elem_eq_true h1)
          (Or.inl (by decide)) hrest hattrs
    · cases hf : fixTagAttributes params0 (lowerStr tag0) with
      | none => rw [hf] at h; exact absurd h (by simp)
      | some params =>
        rw [hf] at h
        simp only [Option.some.injEq] at h
        subst h
        obtain ⟨attrs, rfl, hattrs⟩ := fixTagAttributes_shape hf
        exact GoodOut_tag_close hsl (List.mem_of_elem_eq_true h1) hrest hattrs
    · cases hf : fixTagAttributes params0 (lowerStr tag0) with
      | none => rw [hf] at h; exact absurd h (by simp)
      | some params =>
        rw [hf] at h
        simp only [Option.some.injEq] at h
        subst h
        obtain ⟨attrs, rfl, hattrs⟩ := fixTagAttributes_shape hf
        exact GoodOut_tag hsl (List.mem_of_elem_eq_true h1) hbr hrest hattrs
    · injection h with h; subst h; exact GoodOut_escaped hlt
    · injection h with h; subst h; exact GoodOut_escaped hlt

theorem mapM_chunk_good :
    ∀ (l : List Str) (outs : List Str), (∀ t ∈ l, '<' ∉ t) →
      l.mapM chunkOut = some outs → GoodOut outs.flatten := by
  intro l
  induction l with
  | nil =>
    intro outs _ h
    simp only [List.mapM_nil, pure, Option.some.injEq] at h
    subst h
    exact GoodOut_nil
  | cons t ts ih =>
    intro outs hno h
    rw [List.mapM_cons] at h
    cases hc : chunkOut t with
    | none => rw [hc] at h; exact absurd h (by simp)
    | some o =>
      rw [hc] at h
      cases hm : ts.mapM chunkOut with
      | none => rw [hm] at h; exact absurd h (by simp)
      | some os =>
        rw [hm] at h
        simp only [Option.bind_eq_bind, Option.some_bind, pure,
          Option.some.injEq] at h
        subst h
        rw [List.flatten_cons]
        exact GoodOut_append
          (chunkOut_good (hno t (List.mem_cons_self t ts)) hc)
          (ih os (fun x hx => hno x (List.mem_cons_of_mem t hx)) hm)

theorem removeHTMLTags_good {s out : Str} (h : removeHTMLTags s = some out) :
    GoodOut out := by
  simp only [removeHTMLTags] at h
  cases hsp : splitChar '<' (removeHTMLComments s) with
  | nil =>
    rw [hsp] at h
    simp only [Option.some.injEq] at h
    subst h
    exact GoodOut_nil
  | cons p0 rest =>
    rw [hsp] at h
    have hq : (match rest.mapM chunkOut with
      | none => none
      | some outs => some (replaceGt p0 ++ outs.flatten)) = some out := h
    cases hm : rest.mapM chunkOut with
    | none => rw [hm] at hq; exact absurd hq (by simp)
    | some outs =>
      rw [hm] at hq
      simp only [Option.some.injEq] at hq
      subst hq
      have hpieces := splitChar_no_sep '<' (removeHTMLComments s)
      exact GoodOut_append
        (GoodOut_text (hpieces p0 (by rw [hsp]; exact List.mem_cons_self p0 rest)))
        (mapM_chunk_good rest outs
          (fun x hx => hpieces x (by rw [hsp]; exact List.mem_cons_of_mem p0 hx)) hm)

theorem prefix_take_eq {l1 l2 : Str} (h : l1 <+: l2) {n : Nat}
    (hn : n ≤ l1.length) : l2.take n = l1.take n := by
  obtain ⟨t, rfl⟩ := h
  rw [List.take_append_eq_append_take, Nat.sub_eq_zero_of_le hn]
  simp

theorem script_element_fact :
    ∀ nm ∈ htmlElements, ∀ w ∈ [' ', '/', '>'],
      (6 ≤ nm.length → ¬ nm.take 6 = strOf "script") ∧
      (nm.length < 6 →
        ¬ (strOf "script").take (nm.length + 1) = nm ++ [w]) := by decide

theorem script_not_prefix_tag {nm : Str} (hnm : nm ∈ htmlElements)
    {z : Str} {w : Char} (hw : w = ' ' ∨ w = '/' ∨ w = '>')
    (h : strOf "script" <+: nm ++ w :: z) : False := by
  have hwmem : w ∈ [' ', '/', '>'] := by
    rcases hw with rfl | rfl | rfl <;> simp
  have hfact := script_element_fact nm hnm w hwmem
  by_cases hlen : 6 ≤ nm.length
  · have h6 : (nm ++ w :: z).take 6 = (strOf "script").take 6 :=
      prefix_take_eq h (by decide)
    rw [List.take_append_eq_append_take, Nat.sub_eq_zero_of_le hlen] at h6
    simp only [List.take_zero, List.append_nil] at h6
    exact hfact.1 hlen (by rw [h6]; decide)
  · push_neg at hlen
    have h7 : (nm ++ w :: z).take (nm.length + 1) =
        (strOf "script").take (nm.length + 1) :=
      prefix_take_eq h (by simp [strOf]; omega)
    rw [List.take_append_eq_append_take, List.take_of_length_le (Nat.le_succ _),
      Nat.add_sub_cancel_left] at h7
    simp only [List.take_succ_cons, List.take_zero] at h7
    exact hfact.2 hlen h7.symm

theorem seta_cl_head {attrs : List (Str × Str)} {cl : Str}
    (hcl : cl = ['>'] ∨ cl = ['/', '>']) (R : Str) :
    ∃ w z, safeEncodeTagAttributes attrs ++ cl ++ R = w :: z ∧
      (w = ' ' ∨ w = '/' ∨ w = '>') := by
  cases attrs with
  | nil =>
    have hseta : safeEncodeTagAttributes ([] : List (Str × Str)) = [] := rfl
    rw [hseta]
    rcases hcl with rfl | rfl
    · exact ⟨'>', R, by simp, Or.inr (Or.inr rfl)⟩
    · exact ⟨'/', '>' :: R, by simp, Or.inr (Or.inl rfl)⟩
  | cons p ps =>
    rw [seta_cons]
    refine ⟨' ', (encodeName p.1 ++ '=' :: quoteC ::
      (safeEncodeAttribute p.2 ++ [quoteC])) ++
      (safeEncodeTagAttributes ps ++ (cl ++ R)), ?_, Or.inl rfl⟩
    simp [List.append_assoc]

theorem noscript_drop : ∀ (segs : List Seg), (∀ g ∈ segs, g.Ok) →
    ∀ i : Nat, ¬ (strOf "<script" <+: (segsRender segs).drop i) := by
  intro segs
  induction segs with
  | nil =>
    intro _ i h
    rw [show segsRender ([] : List Seg) = [] from rfl, List.drop_nil] at h
    exact absurd (List.IsPrefix.length_le h) (by decide)
  | cons g gs ih =>
    intro hok i h
    have hgs : ∀ x ∈ gs, x.Ok := fun x hx => hok x (List.mem_cons_of_mem g hx)
    have hgok : g.Ok := hok g (List.mem_cons_self g gs)
    have hsr : segsRender (g :: gs) = g.render ++ segsRender gs := by
      unfold segsRender
      rw [List.map_cons, List.flatten_cons]
    rw [hsr, List.drop_append_eq_append_drop] at h
    by_cases hi : g.render.length ≤ i
    · rw [List.drop_eq_nil_of_le hi, List.nil_append] at h
      exact ih hgs (i - g.render.length) h
    · push_neg at hi
      cases g with
      | text t =>
        obtain ⟨hntl, hngt⟩ := hgok
        obtain ⟨tl, htl⟩ := h
        have hrt : (Seg.text t).render = t := rfl
        rw [hrt] at htl hi
        cases hd : t.drop i with
        | nil =>
          have hlen := congrArg List.length hd
          simp at hlen
          omega
        | cons a as =>
          rw [hd, List.cons_append] at htl
          have hcons : strOf "<script" ++ tl = '<' :: (strOf "script" ++ tl) := rfl
          rw [hcons] at htl
          injection htl with h1 _
          subst h1
          exact hntl ((List.drop_suffix i t).subset
            (by rw [hd]; exact List.mem_cons_self _ _))
      | tag sl nm attrs cl =>
        have hrt : (Seg.tag sl nm attrs cl).render =
            '<' :: (sl ++ nm ++ safeEncodeTagAttributes attrs ++ cl) := rfl
        rw [hrt] at h hi
        cases i with
        | succ j =>
          rw [List.drop_succ_cons] at h
          obtain ⟨tl, htl⟩ := h
          simp only [List.length_cons] at hi
          cases hd : (sl ++ nm ++ safeEncodeTagAttributes attrs ++ cl).drop j with
          | nil =>
            have hlen := congrArg List.length hd
            simp only [List.length_drop, List.length_nil] at hlen
            omega
          | cons a as =>
            rw [hd, List.cons_append] at htl
            have hcons : strOf "<script" ++ tl = '<' :: (strOf "script" ++ tl) := rfl
            rw [hcons] at htl
            injection htl with h1 _
            subst h1
            exact tagBody_no_angle hgok ((List.drop_suffix j _).subset
              (by rw [hd]; exact List.mem_cons_self _ _))
        | zero =>
          simp only [Nat.zero_sub, List.drop_zero] at h
          obtain ⟨tl, htl⟩ := h
          have hcons : strOf "<script" ++ tl = '<' :: (strOf "script" ++ tl) := rfl
          rw [hcons, List.cons_append] at htl
          injection htl with _ h2
          obtain ⟨hsl, hnm, hcl, _⟩ := hgok
          rcases hsl with rfl | rfl
          · have hpre : strOf "script" <+:
                ([] ++ nm ++ safeEncodeTagAttributes attrs ++ cl) ++ segsRender gs :=
              ⟨tl, h2⟩
            simp only [List.nil_append, List.append_assoc] at hpre
            obtain ⟨w, z, hwz, hw⟩ := seta_cl_head hcl (segsRender gs)
            simp only [List.append_assoc] at hwz
            rw [hwz] at hpre
            exact script_not_prefix_tag hnm hw hpre
          · simp only [List.append_assoc, List.cons_append, List.nil_append] at h2
            have hs : strOf "script" ++ tl = 's' :: (strOf "cript" ++ tl) := rfl
            rw [hs] at h2
            injection h2 with h3 _
            exact absurd h3 (by decide)

theorem goodOut_noscript {out : Str} (h : GoodOut out) :
    ¬ (strOf "<script" <:+: out) := by
  intro hinf
  obtain ⟨segs, rfl, hok⟩ := h
  obtain ⟨pre, suf, hps⟩ := hinf
  apply noscript_drop segs hok pre.length
  refine ⟨suf, ?_⟩
  rw [← hps, List.append_assoc, List.drop_left]

/-- **C2** (confirmed).  Whenever `RemoveHTMLTags` returns an output (the
`none` case is the `checkCSS` panic of C1), that output is a concatenation
of segments each of which is either text containing no raw `<` or `>`, or
a well-formed tag over the valid-element set whose surviving
`href`/`src`/`poster` attribute values passed the `hrefExp` protocol
allow-list and carry no `javascript:`/`vbscript:` scheme; moreover the
output never contains the substring `<script`. -/
theorem C2_removeHTMLTags_safe (s out : Str)
    (h : removeHTMLTags s = some out) :
    GoodOut out ∧ ¬ (strOf "<script" <:+: out) :=
  ⟨removeHTMLTags_good h, goodOut_noscript (removeHTMLTags_good h)⟩

theorem C2_removeHTMLTags_safe_witness :
    removeHTMLTags (strOf "a<b>c<script>d") =
      some (strOf "a<b>c&lt;script&gt;d") ∧
    (GoodOut (strOf "a<b>c&lt;script&gt;d") ∧
      ¬ (strOf "<script" <:+: strOf "a<b>c&lt;script&gt;d")) :=
  ⟨by decide, C2_removeHTMLTags_safe (strOf "a<b>c<script>d")
    (strOf "a<b>c&lt;script&gt;d") (by decide)⟩
